import Mathlib

/-!
# NDTP wire codec — verification of `src/synapse/utils/ndtp.pyx`

A shallow embedding of the NDTP codec (bit packing/unpacking primitives,
payload codecs, frame header, message framing with CRC-16) together with
proofs of the round-trip, layout, framing and error-handling properties.

Bytes are modelled as `Nat` (with explicit `< 256` bounds where they
matter), buffers as `List Nat`, sample values as `Int`, and fallible
operations return `Except NDTP.Err`.
-/

namespace NDTP

/-- Error kinds, following the spec's error vocabulary (§7).  Each Python
`ValueError`/`OverflowError`/`struct.error` raised in `ndtp.pyx` is mapped to
the matching kind: "Value … cannot be represented" ↦ `valueOutOfRange`
(together with the struct range failures), "Invalid … size" / "Incomplete
data …" / "insufficient data …" / leftover-bits ↦ `insufficientData`,
"Incompatible version" ↦ `versionMismatch`, "unknown data type" ↦
`unknownDataType`, "CRC16 verification failed" ↦ `checksumError`,
"bit width must be > 0" ↦ `invalidBitWidth`, and the
`ValueError("Invalid shape in axis 0: 0.")` that `cython.view.array`
raises when `to_ints` (ndtp.pyx lines 164-165) allocates its result array
with `max_values = 0` ↦ `invalidShape`. -/
inductive Err where
  | valueOutOfRange
  | insufficientData
  | versionMismatch
  | unknownDataType
  | checksumError
  | invalidBitWidth
  | invalidShape
deriving DecidableEq, Repr

/-- The `byteorder` string argument of `to_bytes`/`to_ints`, modelled as an
enumeration ('little' / 'big'; any other string raises in the source, which
the type makes unrepresentable). -/
inductive ByteOrder where
  | little
  | big
deriving DecidableEq, Repr

/-- Little-endian byte encoding of `n` on `k` bytes (Python
`struct.pack('<…')` field layout). -/
def leBytes : Nat → Nat → List Nat
  | 0, _ => []
  | k + 1, n => n % 256 :: leBytes k (n / 256)

/-- Value of a little-endian byte list. -/
def leVal : List Nat → Nat
  | [] => 0
  | b :: bs => b + 256 * leVal bs

/-- Big-endian byte encoding of `n` on `k` bytes (Python
`int.to_bytes(k, 'big')` / `struct.pack('>…')`). -/
def beBytes (k n : Nat) : List Nat := (leBytes k n).reverse

/-- Value of a big-endian byte list. -/
def beVal (bs : List Nat) : Nat := leVal bs.reverse

@[simp] theorem leBytes_length (k n : Nat) : (leBytes k n).length = k := by
  induction k generalizing n with
  | zero => rfl
  | succ k ih => simp [leBytes, ih]

@[simp] theorem beBytes_length (k n : Nat) : (beBytes k n).length = k := by
  simp [beBytes]

theorem leVal_leBytes (k n : Nat) (h : n < 256 ^ k) : leVal (leBytes k n) = n := by
  induction k generalizing n with
  | zero => simp [leBytes, leVal]; omega
  | succ k ih =>
      simp only [leBytes, leVal]
      rw [ih (n / 256) (by
        have : 256 ^ (k + 1) = 256 ^ k * 256 := by ring
        omega)]
      omega

theorem beVal_beBytes (k n : Nat) (h : n < 256 ^ k) : beVal (beBytes k n) = n := by
  simp [beVal, beBytes, leVal_leBytes k n h]

theorem leBytes_lt (k n : Nat) : ∀ b ∈ leBytes k n, b < 256 := by
  induction k generalizing n with
  | zero => simp [leBytes]
  | succ k ih =>
      intro b hb
      simp only [leBytes, List.mem_cons] at hb
      rcases hb with rfl | hb
      · omega
      · exact ih _ b hb

theorem beBytes_lt (k n : Nat) : ∀ b ∈ beBytes k n, b < 256 := by
  intro b hb
  exact leBytes_lt k n b (List.mem_reverse.mp hb)

/-! ## `to_bytes` (ndtp.pyx lines 24-120): the bit packer -/

/-- `min_value` of `to_bytes` (lines 60-66). -/
def minValue (isSigned : Bool) (w : Nat) : Int :=
  if isSigned then -(2 ^ (w - 1)) else 0

/-- `max_value` of `to_bytes` (lines 60-66). -/
def maxValue (isSigned : Bool) (w : Nat) : Int :=
  if isSigned then 2 ^ (w - 1) - 1 else 2 ^ w - 1

/-- A value fits the declared width/signedness (`min_value <= value <= max_value`). -/
def inRange (isSigned : Bool) (w : Nat) (v : Int) : Prop :=
  minValue isSigned w ≤ v ∧ v ≤ maxValue isSigned w

instance (s : Bool) (w : Nat) (v : Int) : Decidable (inRange s w v) := by
  unfold inRange; infer_instance

/-- Two's-complement conversion of `to_bytes` (lines 86-90):
`value_unsigned = (1 << bit_width) + value` for negative signed values. -/
def toUnsigned (w : Nat) (v : Int) : Nat :=
  if v < 0 then ((2 ^ w : Int) + v).toNat else v.toNat

/-- The inner `while bits_remaining > 0` loop of `to_bytes` (lines 92-113),
with an explicit fuel argument (each iteration writes at least one bit, so
`rem` units of fuel make the fuel guard unreachable): writes the low `rem`
bits of `u`, most-significant first, at bit cursor `c`, OR-ing one
byte-aligned run per iteration into the (pre-extended) buffer. -/
def writeValueAux (bo : ByteOrder) : Nat → List Nat → Nat → Nat → Nat → List Nat × Nat
  | 0, buf, c, _, _ => (buf, c)
  | fuel + 1, buf, c, u, rem =>
    if rem = 0 then (buf, c)
    else
      let byteIndex := c / 8
      let bitIndex := c % 8
      let r := min (8 - bitIndex) rem
      let shift := rem - r
      let chunk := (u >>> shift) &&& (2 ^ r - 1)
      let aligned :=
        match bo with
        | .little => chunk <<< bitIndex
        | .big => chunk <<< (8 - bitIndex - r)
      let buf' := buf.set byteIndex (buf.getD byteIndex 0 ||| aligned)
      writeValueAux bo fuel buf' (c + r) u (rem - r)

/-- The inner `while` loop of `to_bytes`, at its natural fuel. -/
def writeValue (bo : ByteOrder) (buf : List Nat) (c : Nat) (u : Nat) (rem : Nat) :
    List Nat × Nat :=
  writeValueAux bo rem buf c u rem

/-- The `for py_value in values` loop of `to_bytes` (lines 81-113): range-check
each value, convert to two's complement, write its bits. -/
def writeValues (bo : ByteOrder) (isSigned : Bool) (w : Nat) :
    List Int → List Nat → Nat → Except Err (List Nat × Nat)
  | [], buf, c => .ok (buf, c)
  | v :: vs, buf, c =>
    if inRange isSigned w v then
      let p := writeValue bo buf c (toUnsigned w v) w
      writeValues bo isSigned w vs p.1 p.2
    else .error .valueOutOfRange

/-- `to_bytes` (ndtp.pyx lines 24-120).  Initializes the buffer and bit cursor
from `existing`/`writing_bit_offset`, extends the buffer to
`total_bytes_needed`, runs the packing loop, and trims a fully-unused final
byte. -/
def to_bytes (values : List Int) (isSigned : Bool) (w : Nat)
    (existing : Option (List Nat)) (writingBitOffset : Nat) (bo : ByteOrder) :
    Except Err (List Nat × Nat) :=
  let numBitsToWrite := values.length * w
  let init : List Nat × Nat :=
    match existing with
    | none => ([], 0)
    | some b => (b, if b.length > 0 then (b.length - 1) * 8 + writingBitOffset else 0)
  let buffer := init.1
  let bitOffset := init.2
  let totalBitsNeeded := bitOffset + numBitsToWrite
  let totalBytesNeeded := (totalBitsNeeded + 7) / 8
  let buffer :=
    if buffer.length < totalBytesNeeded then
      buffer ++ List.replicate (totalBytesNeeded - buffer.length) 0
    else buffer
  match writeValues bo isSigned w values buffer bitOffset with
  | .error e => .error e
  | .ok (buf, c) =>
    let finalBitOffset := c % 8
    .ok
      (if finalBitOffset = 0 ∧ totalBytesNeeded < buf.length then
         buf.take totalBytesNeeded
       else buf,
       finalBitOffset)

/-! ### Bit-level characterization of the packer (big-endian order) -/

/-- The bit of a byte buffer at absolute (big-endian) bit cursor `j`: bit
`7 - j % 8` of byte `j / 8`. -/
def bufBit (buf : List Nat) (j : Nat) : Bool :=
  (buf.getD (j / 8) 0).testBit (7 - j % 8)

theorem getD_set_self (l : List Nat) (i a : Nat) (h : i < l.length) :
    (l.set i a).getD i 0 = a := by
  rw [List.getD_eq_getElem?_getD, List.getElem?_set_self h, Option.getD_some]

theorem getD_set_ne (l : List Nat) (i j a : Nat) (h : i ≠ j) :
    (l.set i a).getD j 0 = l.getD j 0 := by
  simp [List.getD_eq_getElem?_getD, List.getElem?_set_ne h]

/-- Effect of one byte-aligned OR-run of the big-endian write loop on every
bit of the buffer. -/
theorem bufBit_orRun (buf : List Nat) (c r u rem : Nat)
    (hr : 1 ≤ r) (hr8 : c % 8 + r ≤ 8) (hrrem : r ≤ rem)
    (hlen : c / 8 < buf.length) (j : Nat) :
    bufBit (buf.set (c / 8)
      (buf.getD (c / 8) 0 ||| (((u >>> (rem - r)) &&& (2 ^ r - 1)) <<< (8 - c % 8 - r)))) j
      = (bufBit buf j ||
         (decide (c ≤ j) && decide (j < c + r) && u.testBit (rem - 1 - (j - c)))) := by
  have hc : c = 8 * (c / 8) + c % 8 := (Nat.div_add_mod c 8).symm.trans (by ring)
  have hj : j = 8 * (j / 8) + j % 8 := (Nat.div_add_mod j 8).symm.trans (by ring)
  have hjm : j % 8 < 8 := Nat.mod_lt _ (by norm_num)
  have hcm : c % 8 < 8 := Nat.mod_lt _ (by norm_num)
  by_cases hbyte : j / 8 = c / 8
  · unfold bufBit
    rw [hbyte, getD_set_self _ _ _ hlen]
    rw [Nat.testBit_lor, Nat.testBit_shiftLeft, Nat.testBit_land,
        Nat.testBit_shiftRight, Nat.testBit_two_pow_sub_one]
    by_cases h1 : c ≤ j ∧ j < c + r
    · have hb1 : 8 - c % 8 - r ≤ 7 - j % 8 := by omega
      have hb2 : 7 - j % 8 - (8 - c % 8 - r) < r := by omega
      have hb3 : rem - r + (7 - j % 8 - (8 - c % 8 - r)) = rem - 1 - (j - c) := by omega
      simp [hb1, hb2, hb3, h1.1, h1.2]
    · rcases Decidable.not_and_iff_or_not.mp h1 with h2 | h2
      · -- j < c within the same byte: the run's mask bit `p - d < r` is false
        have hjc : j < c := by omega
        have hmask : ¬(7 - j % 8 - (8 - c % 8 - r) < r) := by omega
        simp [hmask, hjc]
      · -- j ≥ c + r within the same byte: the shift guard `p ≥ d` is false
        have hjc : ¬(j < c + r) := by omega
        have hguard : ¬(8 - c % 8 - r ≤ 7 - j % 8) := by omega
        simp [hguard, hjc]
  · unfold bufBit
    rw [getD_set_ne _ _ _ _ (by omega)]
    have : ¬(c ≤ j ∧ j < c + r) := by
      intro ⟨ha, hb⟩
      exact hbyte (by omega)
    rcases Decidable.not_and_iff_or_not.mp this with h2 | h2 <;> simp [h2]

/-- Characterization of the inner write loop (big-endian): it advances the
cursor by `rem`, keeps the buffer length, keeps bytes below 256, and ORs the
`rem` bits of `u` (most-significant first) into cursor positions
`[c, c + rem)`, leaving every other bit unchanged. -/
theorem writeValueAux_big_spec (u : Nat) :
    ∀ (fuel : Nat) (rem c : Nat) (buf : List Nat), rem ≤ fuel →
      c + rem ≤ 8 * buf.length →
      (writeValueAux .big fuel buf c u rem).2 = c + rem ∧
      (writeValueAux .big fuel buf c u rem).1.length = buf.length ∧
      (∀ i, buf.getD i 0 < 256 → (writeValueAux .big fuel buf c u rem).1.getD i 0 < 256) ∧
      (∀ j, bufBit (writeValueAux .big fuel buf c u rem).1 j =
        (bufBit buf j ||
          (decide (c ≤ j) && decide (j < c + rem) && u.testBit (rem - 1 - (j - c))))) := by
  intro fuel
  induction fuel with
  | zero =>
      intro rem c buf hfuel hfit
      have hrem : rem = 0 := by omega
      subst hrem
      refine ⟨by simp [writeValueAux], by simp [writeValueAux], by simp [writeValueAux], ?_⟩
      intro j
      have : ¬(c ≤ j ∧ j < c + 0) := by omega
      rcases Decidable.not_and_iff_or_not.mp this with h2 | h2 <;>
        simp [writeValueAux, h2]
  | succ fuel ih =>
      intro rem c buf hfuel hfit
      by_cases hrem : rem = 0
      · subst hrem
        refine ⟨by simp [writeValueAux], by simp [writeValueAux], by simp [writeValueAux], ?_⟩
        intro j
        have : ¬(c ≤ j ∧ j < c + 0) := by omega
        rcases Decidable.not_and_iff_or_not.mp this with h2 | h2 <;>
          simp [writeValueAux, h2]
      · have hcm : c % 8 < 8 := Nat.mod_lt _ (by norm_num)
        have hr1 : 1 ≤ min (8 - c % 8) rem := by omega
        have hr8 : c % 8 + min (8 - c % 8) rem ≤ 8 := by omega
        have hrrem : min (8 - c % 8) rem ≤ rem := by omega
        have hlen : c / 8 < buf.length := by omega
        set r := min (8 - c % 8) rem with hrdef
        set buf' := buf.set (c / 8)
          (buf.getD (c / 8) 0 ||| (((u >>> (rem - r)) &&& (2 ^ r - 1)) <<< (8 - c % 8 - r)))
          with hbuf'
        have hstep : writeValueAux .big (fuel + 1) buf c u rem =
            writeValueAux .big fuel buf' (c + r) u (rem - r) := by
          conv_lhs => rw [writeValueAux]
          simp only [if_neg hrem]
        have hlen' : buf'.length = buf.length := by simp [hbuf']
        have hih := ih (rem - r) (c + r) buf' (by omega) (by omega)
        rw [hstep]
        obtain ⟨ih1, ih2, ih3, ih4⟩ := hih
        refine ⟨by omega, by omega, ?_, ?_⟩
        · intro i hi
          apply ih3
          by_cases hic : i = c / 8
          · subst hic
            rw [hbuf', getD_set_self _ _ _ hlen]
            have hchunk : (u >>> (rem - r)) &&& (2 ^ r - 1) < 2 ^ r :=
              Nat.lt_of_le_of_lt Nat.and_le_right
                (Nat.sub_lt (Nat.two_pow_pos r) (by norm_num))
            have halign : ((u >>> (rem - r)) &&& (2 ^ r - 1)) <<< (8 - c % 8 - r) < 2 ^ 8 := by
              rw [Nat.shiftLeft_eq]
              calc ((u >>> (rem - r)) &&& (2 ^ r - 1)) * 2 ^ (8 - c % 8 - r)
                  < 2 ^ r * 2 ^ (8 - c % 8 - r) := by
                    exact Nat.mul_lt_mul_of_lt_of_le hchunk (le_refl _) (by positivity)
                _ = 2 ^ (r + (8 - c % 8 - r)) := by rw [pow_add]
                _ ≤ 2 ^ 8 := Nat.pow_le_pow_right (by norm_num) (by omega)
            exact Nat.or_lt_two_pow hi halign
          · rw [hbuf', getD_set_ne _ _ _ _ (fun h => hic h.symm)]
            exact hi
        · intro j
          rw [ih4 j]
          have hrun := bufBit_orRun buf c r u rem hr1 hr8 hrrem hlen j
          rw [← hbuf'] at hrun
          rw [hrun]
          by_cases h1 : c ≤ j
          · by_cases h2 : j < c + r
            · have h3 : j < c + rem := by omega
              have h4 : ¬(c + r ≤ j) := by omega
              simp [h1, h2, h3, h4]
            · by_cases h3 : j < c + rem
              · have h4 : c + r ≤ j := by omega
                have h5 : rem - r - 1 - (j - (c + r)) = rem - 1 - (j - c) := by omega
                have h6 : j < c + r + (rem - r) := by omega
                simp [h1, h2, h3, h4, h5, h6]
              · have h5 : ¬(j < c + r + (rem - r)) := by omega
                simp [h1, h2, h3, h5]
          · have h2 : ¬(c + r ≤ j) := by omega
            simp [h1, h2]

/-- The `w` bits of `u`, most-significant first: the order in which the write
loop consumes each value's bits. -/
def valueBits (w u : Nat) : List Bool :=
  (List.range w).map fun t => u.testBit (w - 1 - t)

/-- The full bit stream produced by packing `vs` at width `w`:
each value's two's-complement bits, most-significant first, concatenated. -/
def streamBits (w : Nat) (vs : List Int) : List Bool :=
  vs.flatMap fun v => valueBits w (toUnsigned w v)

@[simp] theorem valueBits_length (w u : Nat) : (valueBits w u).length = w := by
  simp [valueBits]

@[simp] theorem streamBits_length (w : Nat) (vs : List Int) :
    (streamBits w vs).length = vs.length * w := by
  induction vs with
  | nil => simp [streamBits]
  | cons v vs ih =>
      simp only [streamBits, List.flatMap_cons] at *
      simp [ih, Nat.succ_mul, Nat.add_comm]

theorem getD_append_left {α : Type} (d : α) (l1 l2 : List α) (i : Nat) (h : i < l1.length) :
    (l1 ++ l2).getD i d = l1.getD i d := by
  simp [List.getD_eq_getElem?_getD, List.getElem?_append, h]

theorem getD_append_right {α : Type} (d : α) (l1 l2 : List α) (i : Nat) (h : l1.length ≤ i) :
    (l1 ++ l2).getD i d = l2.getD (i - l1.length) d := by
  simp [List.getD_eq_getElem?_getD, List.getElem?_append, Nat.not_lt.mpr h]

theorem valueBits_getD (w u t : Nat) (h : t < w) :
    (valueBits w u).getD t false = u.testBit (w - 1 - t) := by
  rw [valueBits, List.getD_eq_getElem?_getD]
  simp [List.getElem?_map, List.getElem?_range h]

theorem getD_replicate_zero (n i : Nat) : (List.replicate n (0 : Nat)).getD i 0 = 0 := by
  induction n generalizing i with
  | zero => simp
  | succ n ih =>
      cases i with
      | zero => simp [List.replicate_succ]
      | succ i => simp [List.replicate_succ, ih i]

/-- Characterization of the value loop of `to_bytes` (big-endian) on in-range
values: it succeeds, advances the cursor by `|vs| * w`, and ORs exactly the
stream bits of `vs` into cursor positions `[c, c + |vs| * w)`. -/
theorem writeValues_big_spec (s : Bool) (w : Nat) :
    ∀ (vs : List Int) (buf : List Nat) (c : Nat),
      (∀ v ∈ vs, inRange s w v) →
      c + vs.length * w ≤ 8 * buf.length →
      ∃ buf', writeValues .big s w vs buf c = .ok (buf', c + vs.length * w) ∧
        buf'.length = buf.length ∧
        (∀ i, buf.getD i 0 < 256 → buf'.getD i 0 < 256) ∧
        (∀ j, bufBit buf' j =
          (bufBit buf j || (decide (c ≤ j) && decide (j < c + vs.length * w) &&
            (streamBits w vs).getD (j - c) false))) := by
  intro vs
  induction vs with
  | nil =>
      intro buf c _ _
      refine ⟨buf, by simp [writeValues], rfl, fun _ h => h, ?_⟩
      intro j
      have : ¬(c ≤ j ∧ j < c + 0 * w) := by omega
      rcases Decidable.not_and_iff_or_not.mp this with h2 | h2 <;> simp [h2]
  | cons v vs ih =>
      intro buf c hrange hfit
      have hv : inRange s w v := hrange v (by simp)
      have hlen1 : c + w ≤ 8 * buf.length := by
        have : vs.length * w + w = (vs.length + 1) * w := by ring
        simp only [List.length_cons] at hfit
        omega
      obtain ⟨h2, hlen, hbound, hbits⟩ :=
        writeValueAux_big_spec (toUnsigned w v) w w c buf (le_refl w) hlen1
      set buf1 := (writeValueAux .big w buf c (toUnsigned w v) w).1 with hbuf1
      have hfit' : c + w + vs.length * w ≤ 8 * buf1.length := by
        simp only [List.length_cons] at hfit
        have : (vs.length + 1) * w = vs.length * w + w := by ring
        omega
      obtain ⟨buf', hwv, hlen', hbound', hbits'⟩ := ih buf1 (c + w)
        (fun x hx => hrange x (by simp [hx])) hfit'
      refine ⟨buf', ?_, by omega, fun i hi => hbound' i (hbound i hi), ?_⟩
      · show writeValues .big s w (v :: vs) buf c = _
        rw [writeValues]
        rw [if_pos hv]
        show writeValues .big s w vs
          (writeValue .big buf c (toUnsigned w v) w).1
          (writeValue .big buf c (toUnsigned w v) w).2 = _
        rw [writeValue, h2, ← hbuf1, hwv]
        congr 2
        simp [List.length_cons]
        ring
      · intro j
        rw [hbits' j, hbits j]
        have hstream : streamBits w (v :: vs) =
            valueBits w (toUnsigned w v) ++ streamBits w vs := by
          simp [streamBits, List.flatMap_cons]
        by_cases h1 : c ≤ j
        · by_cases hA : j < c + w
          · have hB : j < c + (vs.length + 1) * w := by
              have : (vs.length + 1) * w = vs.length * w + w := by ring
              omega
            have hC : ¬(c + w ≤ j) := by omega
            have hD : (streamBits w (v :: vs)).getD (j - c) false =
                (toUnsigned w v).testBit (w - 1 - (j - c)) := by
              rw [hstream, getD_append_left _ _ _ _ (by simp; omega),
                valueBits_getD _ _ _ (by omega)]
            rw [hD]
            simp [h1, hA, hB, hC, List.length_cons]
          · have hC : c + w ≤ j := by omega
            by_cases hB : j < c + (vs.length + 1) * w
            · have hB' : j < c + w + vs.length * w := by
                have : (vs.length + 1) * w = vs.length * w + w := by ring
                omega
              have hD : (streamBits w (v :: vs)).getD (j - c) false =
                  (streamBits w vs).getD (j - (c + w)) false := by
                rw [hstream, getD_append_right _ _ _ _ (by simp; omega)]
                congr 1
                simp
                omega
              rw [hD]
              simp [h1, hA, hB, hB', hC, List.length_cons]
            · have hB' : ¬(j < c + w + vs.length * w) := by
                have : (vs.length + 1) * w = vs.length * w + w := by ring
                omega
              simp [h1, hA, hB, hB', List.length_cons]
        · have hC : ¬(c + w ≤ j) := by omega
          simp [h1, hC]

/-- `to_bytes` on a fresh buffer (big-endian, the codec's default): it
succeeds on in-range values, produces exactly `⌈|vs|·w / 8⌉` bytes (each
below 256) whose bit content is the stream bits of `vs` followed by zero
padding, and reports the final in-byte bit offset `|vs|·w mod 8`. -/
theorem to_bytes_fresh_big_spec (s : Bool) (w : Nat) (vs : List Int)
    (hrange : ∀ v ∈ vs, inRange s w v) :
    ∃ buf, to_bytes vs s w .none 0 .big = .ok (buf, (vs.length * w) % 8) ∧
      buf.length = (vs.length * w + 7) / 8 ∧
      (∀ i, buf.getD i 0 < 256) ∧
      (∀ j, bufBit buf j =
        (decide (j < vs.length * w) && (streamBits w vs).getD j false)) := by
  have hN : vs.length * w ≤ 8 * ((vs.length * w + 7) / 8) := by omega
  obtain ⟨buf', hwv, hlen, hbound, hbits⟩ :=
    writeValues_big_spec s w vs (List.replicate ((vs.length * w + 7) / 8) 0) 0
      hrange (by simp; omega)
  refine ⟨buf', ?_, by simp [hlen], ?_, ?_⟩
  · rw [to_bytes]
    simp only [List.length_nil, Nat.zero_add, List.nil_append]
    have hbuffer : (if 0 < (vs.length * w + 7) / 8 then
        List.replicate ((vs.length * w + 7) / 8 - 0) 0 else ([] : List Nat)) =
        List.replicate ((vs.length * w + 7) / 8) 0 := by
      rcases Nat.eq_zero_or_pos ((vs.length * w + 7) / 8) with h | h
      · simp [h]
      · simp [h]
    rw [hbuffer, hwv]
    have hnotrim : ¬((0 + vs.length * w) % 8 = 0 ∧ (vs.length * w + 7) / 8 < buf'.length) := by
      rw [hlen]; simp
    simp only [Nat.zero_add] at hnotrim
    simp [hnotrim]
  · intro i
    exact hbound i (by rw [getD_replicate_zero]; norm_num)
  · intro j
    rw [hbits j]
    have hz : bufBit (List.replicate ((vs.length * w + 7) / 8) 0) j = false := by
      unfold bufBit
      rw [getD_replicate_zero]
      exact Nat.zero_testBit _
    rw [hz]
    simp

/-- The value loop fails (with `ValueOutOfRange`) as soon as a value is out of
range, for any byte order. -/
theorem writeValues_error_of_exists (bo : ByteOrder) (s : Bool) (w : Nat) :
    ∀ (vs : List Int) (buf : List Nat) (c : Nat),
      (∃ v ∈ vs, ¬inRange s w v) →
      writeValues bo s w vs buf c = .error .valueOutOfRange := by
  intro vs
  induction vs with
  | nil => intro _ _ h; simp at h
  | cons v vs ih =>
      intro buf c h
      rw [writeValues]
      by_cases hv : inRange s w v
      · rw [if_pos hv]
        apply ih
        obtain ⟨x, hx, hnx⟩ := h
        rcases List.mem_cons.mp hx with rfl | hx'
        · exact absurd hv hnx
        · exact ⟨x, hx', hnx⟩
      · rw [if_neg hv]

/-- The value loop succeeds on in-range values, for any byte order. -/
theorem writeValues_ok_of_range (bo : ByteOrder) (s : Bool) (w : Nat) :
    ∀ (vs : List Int) (buf : List Nat) (c : Nat),
      (∀ v ∈ vs, inRange s w v) →
      ∃ r, writeValues bo s w vs buf c = .ok r := by
  intro vs
  induction vs with
  | nil => intro buf c _; exact ⟨(buf, c), rfl⟩
  | cons v vs ih =>
      intro buf c h
      rw [writeValues, if_pos (h v (by simp))]
      exact ih _ _ (fun x hx => h x (by simp [hx]))

/-! ## `to_ints` (ndtp.pyx lines 123-239): the bit unpacker -/

/-- The order in which the nested `for byte_index / for bit_index` loops of
`to_ints` visit the bits of one byte: most-significant first for `'big'`
(`range(7 - start, -1, -1)`), least-significant first for `'little'`
(`range(start, 8)`). -/
def byteBits : ByteOrder → Nat → List Bool
  | .big, b => [b.testBit 7, b.testBit 6, b.testBit 5, b.testBit 4,
                b.testBit 3, b.testBit 2, b.testBit 1, b.testBit 0]
  | .little, b => [b.testBit 0, b.testBit 1, b.testBit 2, b.testBit 3,
                   b.testBit 4, b.testBit 5, b.testBit 6, b.testBit 7]

/-- One accumulation step of `to_ints`:
`current_value = (current_value << 1) | bit` for `'big'` (line 200),
`current_value |= bit << bits_in_current_value` for `'little'` (line 177). -/
def accBit (bo : ByteOrder) (cv : Nat) (bic : Nat) (bit : Bool) : Nat :=
  match bo with
  | .big => (cv <<< 1) ||| (if bit then 1 else 0)
  | .little => cv ||| ((if bit then 1 else 0) <<< bic)

/-- Sign handling of `to_ints` (lines 204-209): if signed and the sign bit is
set, subtract `1 << bit_width`; otherwise mask to `bit_width` bits. -/
def signAdjust (isSigned : Bool) (w : Nat) (cv : Nat) : Int :=
  if isSigned then
    (if cv &&& (1 <<< (w - 1)) ≠ 0 then (cv : Int) - 2 ^ w else (cv : Int))
  else ((cv &&& (2 ^ w - 1) : Nat) : Int)

/-- Result of the main loop of `to_ints`: the decoded values, final
`current_value` / `bits_in_current_value` / `total_bits_read`, and whether the
loop returned early because `count` values were produced. -/
structure ReadState where
  values : List Int
  cv : Nat
  bic : Nat
  tbr : Nat
  early : Bool
deriving DecidableEq, Repr

/-- The nested bit-consuming loops of `to_ints` (lines 170-217), presented over
the flat bit sequence the two loops visit.  Each bit is accumulated; every
`bit_width` bits a value is emitted; when `count > 0` values reach `count` the
function returns early. -/
def readLoop (bo : ByteOrder) (isSigned : Bool) (w count : Nat) :
    List Bool → Nat → Nat → Nat → List Int → ReadState
  | [], cv, bic, tbr, acc => ⟨acc, cv, bic, tbr, false⟩
  | bit :: rest, cv, bic, tbr, acc =>
    let cv' := accBit bo cv bic bit
    if bic + 1 = w then
      let acc' := acc ++ [signAdjust isSigned w cv']
      if count > 0 ∧ acc'.length = count then ⟨acc', 0, 0, tbr + 1, true⟩
      else readLoop bo isSigned w count rest 0 0 (tbr + 1) acc'
    else readLoop bo isSigned w count rest cv' (bic + 1) (tbr + 1) acc

/-- `to_ints` (ndtp.pyx lines 123-239).  Rejects `bit_width <= 0`, skips
`start_bit // 8` whole bytes, performs the up-front length check when `count`
is given, then allocates the result array of size
`max_values = count if count > 0 else (data_len * 8) // bit_width` —
`cython.view.array(shape=(max_values,), ...)` (lines 163-164) raises
`ValueError("Invalid shape in axis 0: 0.")` when `max_values = 0`, modelled
as `invalidShape` — runs the bit loop, and applies the leftover-bits policy
(raise when `count == 0`, silently discard otherwise).  Returns
`(values, end_bit, truncated_data)`. -/
def to_ints (data : List Nat) (isSigned : Bool) (w : Nat) (count : Nat)
    (startBit : Nat) (bo : ByteOrder) :
    Except Err (List Int × Nat × List Nat) :=
  if w = 0 then .error .invalidBitWidth
  else
    let truncateBytes := startBit / 8
    let sb := startBit % 8
    let data := data.drop truncateBytes
    if count > 0 ∧ data.length < (w * count + 7) / 8 then .error .insufficientData
    else
      let maxValues := if count > 0 then count else data.length * 8 / w
      if maxValues = 0 then .error .invalidShape
      else
        let bits := ((data.map (byteBits bo)).flatten).drop sb
        let st := readLoop bo isSigned w count bits 0 0 0 []
        if st.early then .ok (st.values, sb + st.tbr, data)
        else if st.bic > 0 ∧ count = 0 then .error .insufficientData
        else .ok (st.values, sb + st.tbr, data)

/-! ### Bit-level characterization of the unpacker (big-endian order) -/

/-- The big-endian accumulator of `to_ints` over a run of bits:
`current_value = (current_value << 1) | bit` repeatedly. -/
def foldAccBE (cv : Nat) (g : List Bool) : Nat :=
  g.foldl (fun a b => 2 * a + (if b then 1 else 0)) cv

/-- The value `to_ints` produces from one group of `w` bits (big-endian). -/
def decodeBE (s : Bool) (w : Nat) (g : List Bool) : Int :=
  signAdjust s w (foldAccBE 0 g)

/-- The first `k` `w`-bit groups of a bit list, decoded. -/
def groupsDecode (s : Bool) (w : Nat) : Nat → List Bool → List Int
  | 0, _ => []
  | k + 1, bs => decodeBE s w (bs.take w) :: groupsDecode s w k (bs.drop w)

@[simp] theorem groupsDecode_length (s : Bool) (w k : Nat) (bs : List Bool) :
    (groupsDecode s w k bs).length = k := by
  induction k generalizing bs with
  | zero => rfl
  | succ k ih => simp [groupsDecode, ih]

@[simp] theorem byteBits_length (bo : ByteOrder) (b : Nat) : (byteBits bo b).length = 8 := by
  cases bo <;> rfl

theorem flatten_byteBits_length (bo : ByteOrder) (buf : List Nat) :
    ((buf.map (byteBits bo)).flatten).length = 8 * buf.length := by
  induction buf with
  | nil => rfl
  | cons b bs ih => simp [ih]; ring

theorem byteBits_big_getD (b j : Nat) (h : j < 8) :
    (byteBits .big b).getD j false = b.testBit (7 - j) := by
  interval_cases j <;> rfl

/-- The bit sequence the big-endian read loops of `to_ints` visit is exactly
the buffer's big-endian cursor bits. -/
theorem flatten_byteBits_big_getD (buf : List Nat) (j : Nat) :
    ((buf.map (byteBits .big)).flatten).getD j false = bufBit buf j := by
  induction buf generalizing j with
  | nil =>
      unfold bufBit
      simp [Nat.zero_testBit]
  | cons b bs ih =>
      have hflat : ((b :: bs).map (byteBits .big)).flatten =
          byteBits .big b ++ (bs.map (byteBits .big)).flatten := by simp
      rw [hflat]
      rcases Nat.lt_or_ge j 8 with h | h
      · rw [getD_append_left _ _ _ _ (by simp [h]), byteBits_big_getD _ _ h]
        unfold bufBit
        have h1 : j / 8 = 0 := by omega
        have h2 : j % 8 = j := by omega
        rw [h1, h2]
        rfl
      · rw [getD_append_right _ _ _ _ (by simp [h]), byteBits_length]
        rw [ih (j - 8)]
        unfold bufBit
        have h1 : (j - 8) / 8 = j / 8 - 1 := by omega
        have h2 : (j - 8) % 8 = j % 8 := by omega
        have h3 : j / 8 = (j / 8 - 1) + 1 := by omega
        rw [h1, h2, h3]
        rfl

theorem accBit_big (cv bic : Nat) (b : Bool) :
    accBit .big cv bic b = 2 * cv + (if b then 1 else 0) := by
  unfold accBit
  cases b
  · simp [Nat.shiftLeft_eq, Nat.mul_comm]
  · simp only [if_pos trivial]
    rw [Nat.shiftLeft_eq, pow_one, Nat.mul_comm]
    have h := Nat.mul_add_lt_is_or (show (1 : Nat) < 2 ^ 1 by norm_num) cv
    norm_num at h
    exact h.symm

/-- Consuming one `w`-bit group: starting mid-group with `bic` bits already
accumulated into `cv`, reading `g` (the rest of the group) emits one value and
either stops early (when `count` is reached) or continues on the remaining
bits with a reset accumulator. -/
theorem readLoop_consume_group (s : Bool) (w count : Nat) :
    ∀ (g rest : List Bool) (cv bic tbr : Nat) (acc : List Int),
      bic + g.length = w → bic < w →
      readLoop .big s w count (g ++ rest) cv bic tbr acc =
        (if count > 0 ∧ (acc ++ [signAdjust s w (foldAccBE cv g)]).length = count then
          ⟨acc ++ [signAdjust s w (foldAccBE cv g)], 0, 0, tbr + g.length, true⟩
        else readLoop .big s w count rest 0 0 (tbr + g.length)
          (acc ++ [signAdjust s w (foldAccBE cv g)])) := by
  intro g
  induction g with
  | nil => intro rest cv bic tbr acc hlen hbic; simp at hlen; omega
  | cons b g ih =>
      intro rest cv bic tbr acc hlen hbic
      simp only [List.cons_append]
      rw [readLoop]
      rcases Nat.lt_or_ge (bic + 1) w with hlt | hge
      · rw [if_neg (by omega)]
        have := ih rest (accBit .big cv bic b) (bic + 1) (tbr + 1) acc
          (by simp at hlen ⊢; omega) hlt
        rw [this]
        have hfold : foldAccBE (accBit .big cv bic b) g = foldAccBE cv (b :: g) := by
          rw [accBit_big]
          rfl
        rw [hfold]
        have htbr : tbr + 1 + g.length = tbr + (b :: g).length := by simp; omega
        rw [htbr]
      · have hw : bic + 1 = w := by omega
        have hg : g = [] := by
          have := hlen
          simp at this
          have : g.length = 0 := by omega
          exact List.length_eq_zero.mp this
        subst hg
        rw [if_pos hw]
        have hfold : foldAccBE cv [b] = accBit .big cv bic b := by
          rw [accBit_big]
          rfl
        simp only [List.nil_append, List.length_cons, List.length_nil]
        rw [hfold]

/-- Running the read loop for `k` more groups with enough bits available:
it emits the `k` decoded groups and stops early exactly when the count is
reached, having consumed `k * w` bits. -/
theorem readLoop_run (s : Bool) (w count : Nat) (hw : 0 < w) :
    ∀ (k : Nat) (bits : List Bool) (acc : List Int) (tbr : Nat),
      count = acc.length + k → 0 < k → k * w ≤ bits.length →
      readLoop .big s w count bits 0 0 tbr acc =
        ⟨acc ++ groupsDecode s w k bits, 0, 0, tbr + k * w, true⟩ := by
  intro k
  induction k with
  | zero => omega
  | succ k ih =>
      intro bits acc tbr hcount hk hlen
      have hexp : (k + 1) * w = k * w + w := by ring
      have hwle : w ≤ bits.length := by
        have h0 : 0 ≤ k * w := Nat.zero_le _
        omega
      have htakelen : (bits.take w).length = w := by
        rw [List.length_take]
        omega
      have hsplit : bits = bits.take w ++ bits.drop w := (List.take_append_drop _ _).symm
      conv_lhs => rw [hsplit]
      rw [readLoop_consume_group s w count (bits.take w) (bits.drop w)
        0 0 tbr acc (by omega) hw]
      rcases Nat.eq_zero_or_pos k with hk0 | hkpos
      · subst hk0
        rw [if_pos (⟨by omega, by simp; omega⟩ :
          count > 0 ∧ (acc ++ [signAdjust s w (foldAccBE 0 (bits.take w))]).length = count)]
        have hgd : groupsDecode s w (0 + 1) bits =
            [decodeBE s w (bits.take w)] := by
          simp [groupsDecode]
        rw [hgd]
        simp [decodeBE, htakelen]
      · rw [if_neg (by simp; omega)]
        have hdroplen : k * w ≤ (bits.drop w).length := by
          rw [List.length_drop]
          exact Nat.le_sub_of_add_le (by omega)
        rw [ih (bits.drop w) (acc ++ [signAdjust s w (foldAccBE 0 (bits.take w))])
          (tbr + (bits.take w).length) (by simp; omega) hkpos hdroplen]
        have hgd : groupsDecode s w (k + 1) bits =
            decodeBE s w (bits.take w) :: groupsDecode s w k (bits.drop w) := rfl
        rw [hgd]
        simp only [decodeBE, htakelen]
        have ht : tbr + w + k * w = tbr + (k + 1) * w := by rw [hexp]; ring
        rw [ht]
        simp

theorem valueBits_succ (w u : Nat) :
    valueBits (w + 1) u = u.testBit w :: valueBits w u := by
  unfold valueBits
  rw [List.range_succ_eq_map]
  simp [Function.comp]
  intro a _
  congr 1
  omega

theorem foldAccBE_valueBits (w : Nat) :
    ∀ (cv u : Nat), foldAccBE cv (valueBits w u) = cv * 2 ^ w + u % 2 ^ w := by
  induction w with
  | zero =>
      intro cv u
      simp [valueBits, foldAccBE, Nat.mod_one]
  | succ w ih =>
      intro cv u
      rw [valueBits_succ]
      have hstep : foldAccBE cv (u.testBit w :: valueBits w u) =
          foldAccBE (2 * cv + (if u.testBit w then 1 else 0)) (valueBits w u) := rfl
      rw [hstep, ih]
      have hbit : (if u.testBit w then 1 else 0) = u / 2 ^ w % 2 := by
        rw [Nat.testBit_to_div_mod]
        rcases Nat.mod_two_eq_zero_or_one (u / 2 ^ w) with h | h <;> simp [h]
      have hmod : u % 2 ^ (w + 1) = 2 ^ w * (u / 2 ^ w % 2) + u % 2 ^ w := by
        rw [Nat.mod_pow_succ]
        ring
      rw [hbit, hmod, pow_succ]
      ring

theorem toUnsigned_lt (s : Bool) (w : Nat) (v : Int) (h : inRange s w v) :
    toUnsigned w v < 2 ^ w := by
  have hcast : ((2 ^ w : Nat) : Int) = (2 : Int) ^ w := by push_cast; ring
  have hcast1 : ((2 ^ (w - 1) : Nat) : Int) = (2 : Int) ^ (w - 1) := by push_cast; ring
  have hple : (2 : Int) ^ (w - 1) ≤ 2 ^ w := by
    apply pow_le_pow_right₀ <;> omega
  unfold toUnsigned
  unfold inRange minValue maxValue at h
  by_cases hv : v < 0
  · rw [if_pos hv]
    cases s with
    | false => simp at h; omega
    | true => simp only [if_pos trivial] at h; omega
  · rw [if_neg hv]
    cases s with
    | false => simp at h; omega
    | true => simp only [if_pos trivial] at h; omega

/-- Decoding one group of stream bits recovers the original value. -/
theorem decodeBE_valueBits (s : Bool) (w : Nat) (v : Int)
    (hw : 0 < w) (h : inRange s w v) :
    decodeBE s w (valueBits w (toUnsigned w v)) = v := by
  have hu : toUnsigned w v < 2 ^ w := toUnsigned_lt s w v h
  unfold decodeBE
  rw [foldAccBE_valueBits, Nat.zero_mul, Nat.zero_add, Nat.mod_eq_of_lt hu]
  unfold signAdjust
  have htest : toUnsigned w v &&& (1 <<< (w - 1)) =
      ((toUnsigned w v).testBit (w - 1)).toNat * 2 ^ (w - 1) := by
    rw [Nat.shiftLeft_eq, Nat.one_mul, Nat.and_two_pow]
  have hbit : (toUnsigned w v).testBit (w - 1) = decide (2 ^ (w - 1) ≤ toUnsigned w v) := by
    rw [Nat.testBit_to_div_mod]
    have hd : toUnsigned w v / 2 ^ (w - 1) < 2 := by
      apply Nat.div_lt_of_lt_mul
      calc toUnsigned w v < 2 ^ w := hu
        _ = 2 ^ (w - 1) * 2 := by
            rw [← pow_succ]
            congr 1
            omega
    rcases Nat.lt_or_ge (toUnsigned w v) (2 ^ (w - 1)) with hlt | hge
    · rw [Nat.div_eq_of_lt hlt]
      simp
      omega
    · have h1 : 1 ≤ toUnsigned w v / 2 ^ (w - 1) :=
        (Nat.one_le_div_iff (Nat.two_pow_pos _)).mpr hge
      have h2 : toUnsigned w v / 2 ^ (w - 1) = 1 := by omega
      rw [h2]
      simp
      omega
  unfold inRange minValue maxValue at h
  have hcast : ((2 ^ w : Nat) : Int) = (2 : Int) ^ w := by push_cast; ring
  have hcast1 : ((2 ^ (w - 1) : Nat) : Int) = (2 : Int) ^ (w - 1) := by push_cast; ring
  have hsplit : (2 : Int) ^ w = 2 ^ (w - 1) * 2 := by
    rw [← pow_succ]
    congr 1
    omega
  cases s with
  | false =>
      simp only [Bool.false_eq_true, if_false]
      rw [Nat.and_pow_two_sub_one_eq_mod, Nat.mod_eq_of_lt hu]
      unfold toUnsigned
      simp at h
      rw [if_neg (by omega)]
      omega
  | true =>
      simp only [if_pos trivial] at h ⊢
      rw [htest, hbit]
      unfold toUnsigned at hu ⊢
      by_cases hv : v < 0
      · rw [if_pos hv] at hu ⊢
        have hge : 2 ^ (w - 1) ≤ ((2 : Int) ^ w + v).toNat := by omega
        rw [decide_eq_true hge]
        simp only [Bool.toNat_true, Nat.one_mul, ne_eq]
        rw [if_pos (by positivity)]
        omega
      · rw [if_neg hv] at hu ⊢
        have hlt : ¬(2 ^ (w - 1) ≤ v.toNat) := by omega
        rw [decide_eq_false (by simpa using hlt)]
        simp only [Bool.toNat_false, Nat.zero_mul, ne_eq]
        rw [if_neg (by simp)]
        omega

/-- Decoding `|vs|` groups from the packed stream (with anything appended)
recovers `vs`. -/
theorem groupsDecode_streamBits (s : Bool) (w : Nat) (hw : 0 < w) :
    ∀ (vs : List Int) (rest : List Bool),
      (∀ v ∈ vs, inRange s w v) →
      groupsDecode s w vs.length (streamBits w vs ++ rest) = vs := by
  intro vs
  induction vs with
  | nil => intro rest _; rfl
  | cons v vs ih =>
      intro rest hrange
      have hstream : streamBits w (v :: vs) ++ rest =
          valueBits w (toUnsigned w v) ++ (streamBits w vs ++ rest) := by
        simp [streamBits, List.flatMap_cons]
      rw [hstream]
      show decodeBE s w ((valueBits w (toUnsigned w v) ++ (streamBits w vs ++ rest)).take w) ::
        groupsDecode s w vs.length
          ((valueBits w (toUnsigned w v) ++ (streamBits w vs ++ rest)).drop w) = v :: vs
      rw [List.take_append_of_le_length (by simp), List.drop_append_of_le_length (by simp)]
      have ht : (valueBits w (toUnsigned w v)).take w = valueBits w (toUnsigned w v) := by
        apply List.take_of_length_le
        simp
      have hd : (valueBits w (toUnsigned w v)).drop w = [] := by
        apply List.drop_of_length_le
        simp
      rw [ht, hd, List.nil_append]
      rw [decodeBE_valueBits s w v hw (hrange v (by simp))]
      rw [ih rest (fun x hx => hrange x (by simp [hx]))]

theorem list_eq_of_getD {α : Type} (d : α) (l1 l2 : List α)
    (hlen : l1.length = l2.length)
    (h : ∀ j, j < l1.length → l1.getD j d = l2.getD j d) : l1 = l2 := by
  apply List.ext_getElem hlen
  intro i h1 h2
  have hi := h i h1
  rwa [List.getD_eq_getElem?_getD, List.getD_eq_getElem?_getD,
    List.getElem?_eq_getElem h1, List.getElem?_eq_getElem h2,
    Option.getD_some, Option.getD_some] at hi

theorem getD_replicate_false (n i : Nat) :
    (List.replicate n false).getD i false = false := by
  induction n generalizing i with
  | zero => simp
  | succ n ih =>
      cases i with
      | zero => simp [List.replicate_succ]
      | succ i => simp [List.replicate_succ, ih i]

/-- `to_ints` (big-endian) with a positive `count` and enough bits available
after the skipped bytes and `start_bit mod 8`: it succeeds, returns the first
`count` decoded `w`-bit groups, stops right after them (end bit
`start_bit mod 8 + count * w`), and returns the truncated input. -/
theorem to_ints_count_big (data : List Nat) (s : Bool) (w count startBit : Nat)
    (hw : 0 < w) (hc : 0 < count)
    (hbits : count * w + startBit % 8 ≤ 8 * (data.drop (startBit / 8)).length) :
    to_ints data s w count startBit .big =
      .ok (groupsDecode s w count
            ((((data.drop (startBit / 8)).map (byteBits .big)).flatten).drop (startBit % 8)),
        startBit % 8 + count * w, data.drop (startBit / 8)) := by
  have hcomm : w * count = count * w := Nat.mul_comm w count
  have hsb : startBit % 8 < 8 := Nat.mod_lt _ (by norm_num)
  rw [to_ints]
  rw [if_neg (by omega)]
  have hcheck : ¬(count > 0 ∧
      (data.drop (startBit / 8)).length < (w * count + 7) / 8) := by
    intro ⟨_, hlt⟩
    omega
  rw [if_neg hcheck]
  rw [if_neg (show ¬((if count > 0 then count
      else (data.drop (startBit / 8)).length * 8 / w) = 0) by
    rw [if_pos hc]
    omega)]
  have hlenflat : (((data.drop (startBit / 8)).map (byteBits .big)).flatten).length =
      8 * (data.drop (startBit / 8)).length := flatten_byteBits_length _ _
  have hlenbits : count * w ≤
      ((((data.drop (startBit / 8)).map (byteBits .big)).flatten).drop (startBit % 8)).length := by
    rw [List.length_drop, hlenflat]
    omega
  have hrun := readLoop_run s w count hw count
    ((((data.drop (startBit / 8)).map (byteBits .big)).flatten).drop (startBit % 8))
    [] 0 (by simp) hc hlenbits
  simp only [hrun]
  simp

/-- `to_ints` on the bytes produced by a fresh big-endian `to_bytes` call
recovers exactly the packed values (at least one value: decoding a zero-count
empty slice raises `invalidShape` in the source). -/
theorem to_ints_of_to_bytes (s : Bool) (w : Nat) (vs : List Int)
    (buf : List Nat) (off : Nat) (hw : 0 < w) (hn : 0 < vs.length)
    (hrange : ∀ v ∈ vs, inRange s w v)
    (hpack : to_bytes vs s w .none 0 .big = .ok (buf, off)) :
    to_ints buf s w vs.length 0 .big = .ok (vs, vs.length * w, buf) := by
  obtain ⟨buf', hb, hlen, hbound, hbits⟩ := to_bytes_fresh_big_spec s w vs hrange
  rw [hpack] at hb
  have hbuf : buf = buf' := congrArg Prod.fst (Except.ok.inj hb)
  subst hbuf
  have hNle : vs.length * w ≤ 8 * buf.length := by
    rw [hlen]
    omega
  have hrw := to_ints_count_big buf s w vs.length 0 hw hn
    (by simp; omega)
  simp only [Nat.zero_div, Nat.zero_mod, List.drop_zero, Nat.zero_add] at hrw
  rw [hrw]
  have hlist : ((buf.map (byteBits .big)).flatten) =
      streamBits w vs ++ List.replicate (8 * buf.length - vs.length * w) false := by
    apply list_eq_of_getD false
    · rw [flatten_byteBits_length]
      simp
      omega
    · intro j hj
      rw [flatten_byteBits_length] at hj
      rw [flatten_byteBits_big_getD, hbits j]
      rcases Nat.lt_or_ge j (vs.length * w) with h | h
      · rw [getD_append_left _ _ _ _ (by simp [h])]
        simp [h]
      · rw [getD_append_right _ _ _ _ (by simp [h]), getD_replicate_false]
        simp [Nat.not_lt.mpr h]
  have hgd : groupsDecode s w vs.length ((buf.map (byteBits .big)).flatten) = vs := by
    rw [hlist]
    exact groupsDecode_streamBits s w hw vs _ hrange
  rw [hgd]

/-! ## Data model (ndtp.pyx lines 242-512) -/

/-- `ChannelData` (lines 242-271): one channel id plus its sample array. -/
structure ChannelData where
  channel_id : Nat
  channel_data : List Int
deriving DecidableEq, Repr

/-- `NDTPPayloadBroadband` (lines 274-384). -/
structure NDTPPayloadBroadband where
  is_signed : Bool
  bit_width : Nat
  sample_rate : Nat
  channels : List ChannelData
deriving DecidableEq, Repr

/-- `NDTPPayloadSpiketrain` (lines 387-453). -/
structure NDTPPayloadSpiketrain where
  spike_counts : List Int
deriving DecidableEq, Repr

/-- `NDTPHeader` (lines 456-503): `data_type`, `timestamp`, `seq_number`
(the version is the constant `NDTP_VERSION`, not a field). -/
structure NDTPHeader where
  data_type : Nat
  timestamp : Nat
  seq_number : Nat
deriving DecidableEq, Repr

/-- `NDTP_VERSION = 0x01` (line 20). -/
def NDTP_VERSION : Nat := 0x01

/-- `NDTPPayloadSpiketrain_BIT_WIDTH = 2` (line 21). -/
def NDTPPayloadSpiketrain_BIT_WIDTH : Nat := 2

/-- Modelled from the spec: the numeric values of the external protobuf enum
`DataType` (`synapse.api.datatype_pb2`, not part of this repository's sources;
the spec says the tags are "owned by an external schema").  Only the
distinctness of the two tags and their fitting in 32 bits matter to the
codec. -/
def DataType_kBroadband : Nat := 1

/-- Modelled from the spec: the external `DataType.kSpiketrain` tag; see
`DataType_kBroadband`. -/
def DataType_kSpiketrain : Nat := 2

/-! ## Broadband payload codec (lines 286-371) -/

/-- The `for c in self.channels` loop of `NDTPPayloadBroadband.pack`
(lines 301-313): 3 bytes channel id (`OverflowError` if ≥ 2^24), 2 bytes
sample count (`struct.error` if ≥ 2^16), then the bit-packed samples. -/
def packChannels (isSigned : Bool) (w : Nat) : List ChannelData → Except Err (List Nat)
  | [] => .ok []
  | c :: rest =>
    if c.channel_id < 2 ^ 24 then
      if c.channel_data.length < 2 ^ 16 then do
        let p ← to_bytes c.channel_data isSigned w .none 0 .big
        let restBytes ← packChannels isSigned w rest
        .ok (beBytes 3 c.channel_id ++ beBytes 2 c.channel_data.length ++ p.1 ++ restBytes)
      else .error .valueOutOfRange
    else .error .valueOutOfRange

/-- `NDTPPayloadBroadband.pack` (lines 286-315): 1 byte
`((bit_width & 0x7F) << 1) | is_signed`, 3 bytes channel count (big-endian),
2 bytes sample rate (big-endian), then the per-channel blocks. -/
def NDTPPayloadBroadband.pack (p : NDTPPayloadBroadband) : Except Err (List Nat) :=
  if p.channels.length < 2 ^ 24 then
    if p.sample_rate < 2 ^ 16 then do
      let body ← packChannels p.is_signed p.bit_width p.channels
      .ok ((((p.bit_width &&& 0x7F) <<< 1) ||| (if p.is_signed then 1 else 0)) ::
           (beBytes 3 p.channels.length ++ beBytes 2 p.sample_rate ++ body))
    else .error .valueOutOfRange
  else .error .valueOutOfRange

/-- The `for _ in range(num_channels)` loop of `NDTPPayloadBroadband.unpack`
(lines 340-369), expressed on the remaining byte suffix (the source's `pos`
cursor into `data` corresponds to dropping consumed bytes): check and read a
3-byte channel id, a 2-byte sample count, then
`(num_samples * bit_width + 7) // 8` bytes of bit-packed samples. -/
def parseChannels (isSigned : Bool) (w : Nat) : Nat → List Nat → Except Err (List ChannelData)
  | 0, _ => .ok []
  | n + 1, data =>
    if data.length < 3 then .error .insufficientData
    else
      let cid := beVal (data.take 3)
      let data1 := data.drop 3
      if data1.length < 2 then .error .insufficientData
      else
        let cnt := beVal (data1.take 2)
        let data2 := data1.drop 2
        let bytesNeeded := (cnt * w + 7) / 8
        if data2.length < bytesNeeded then .error .insufficientData
        else do
          let r ← to_ints (data2.take bytesNeeded) isSigned w cnt 0 .big
          let rest ← parseChannels isSigned w n (data2.drop bytesNeeded)
          .ok (⟨cid, r.1⟩ :: rest)

/-- `NDTPPayloadBroadband.unpack` (lines 317-371). -/
def NDTPPayloadBroadband.unpack (data : List Nat) : Except Err NDTPPayloadBroadband :=
  if data.length < 6 then .error .insufficientData
  else
    let b0 := data.getD 0 0
    let w := b0 >>> 1
    let isSigned := b0 &&& 1 = 1
    let numChannels := beVal ((data.drop 1).take 3)
    let sampleRate := beVal ((data.drop 4).take 2)
    (parseChannels isSigned w numChannels (data.drop 6)).map
      fun chs => ⟨isSigned, w, sampleRate, chs⟩

/-! ## Spiketrain payload codec (lines 407-445) -/

/-- `NDTPPayloadSpiketrain.pack` (lines 407-419): 4 bytes spike count
(little-endian `"<I"`), then the counts bit-packed at the fixed 2-bit
unsigned width. -/
def NDTPPayloadSpiketrain.pack (p : NDTPPayloadSpiketrain) : Except Err (List Nat) :=
  if p.spike_counts.length < 2 ^ 32 then do
    let r ← to_bytes p.spike_counts false NDTPPayloadSpiketrain_BIT_WIDTH .none 0 .big
    .ok (leBytes 4 p.spike_counts.length ++ r.1)
  else .error .valueOutOfRange

/-- `NDTPPayloadSpiketrain.unpack` (lines 421-445). -/
def NDTPPayloadSpiketrain.unpack (data : List Nat) : Except Err NDTPPayloadSpiketrain :=
  if data.length < 4 then .error .insufficientData
  else
    let numSpikes := leVal (data.take 4)
    let payload := data.drop 4
    let bytesNeeded := (numSpikes * NDTPPayloadSpiketrain_BIT_WIDTH + 7) / 8
    if payload.length < bytesNeeded then .error .insufficientData
    else
      (to_ints (payload.take bytesNeeded) false NDTPPayloadSpiketrain_BIT_WIDTH
        numSpikes 0 .big).map fun r => ⟨r.1⟩

/-! ## Header codec (lines 456-503): `struct.Struct("<BIQH")`, 15 bytes -/

/-- The size of `struct.Struct("<BIQH")`: 1 + 4 + 8 + 2 bytes. -/
def NDTPHeader_STRUCT_size : Nat := 15

/-- `NDTPHeader.pack` (lines 480-484): `struct.pack("<BIQH", NDTP_VERSION,
data_type, timestamp, seq_number)` — little-endian, version on 1 byte,
data_type on 4, timestamp on 8, seq_number on 2; `struct` raises when a field
exceeds its width. -/
def NDTPHeader.pack (h : NDTPHeader) : Except Err (List Nat) :=
  if h.data_type < 2 ^ 32 ∧ h.timestamp < 2 ^ 64 ∧ h.seq_number < 2 ^ 16 then
    .ok (NDTP_VERSION :: (leBytes 4 h.data_type ++ leBytes 8 h.timestamp ++
         leBytes 2 h.seq_number))
  else .error .valueOutOfRange

/-- `NDTPHeader.unpack` (lines 486-503). -/
def NDTPHeader.unpack (data : List Nat) : Except Err NDTPHeader :=
  if data.length < NDTPHeader_STRUCT_size then .error .insufficientData
  else
    let version := data.getD 0 0
    let dataType := leVal ((data.drop 1).take 4)
    let timestamp := leVal ((data.drop 5).take 8)
    let seqNumber := leVal ((data.drop 13).take 2)
    if version ≠ NDTP_VERSION then .error .versionMismatch
    else .ok ⟨dataType, timestamp, seqNumber⟩

/-! ## Message codec (lines 506-581) -/

/-- The duck-typed `payload` object of `NDTPMessage`, as a sum. -/
inductive NDTPPayload where
  | broadband (p : NDTPPayloadBroadband)
  | spiketrain (p : NDTPPayloadSpiketrain)
deriving DecidableEq, Repr

/-- `NDTPMessage` (lines 506-512); `payload` may be `None`. -/
structure NDTPMessage where
  header : NDTPHeader
  payload : Option NDTPPayload
deriving DecidableEq, Repr

/-- `pack` dispatched on the payload's concrete class. -/
def NDTPPayload.pack : NDTPPayload → Except Err (List Nat)
  | .broadband p => p.pack
  | .spiketrain p => p.pack

/-- One iteration of the inner `for i in range(8)` loop of
`NDTPMessage.crc16` (lines 522-527). -/
def crcRound (poly : Nat) (crc : Nat) : Nat :=
  if crc &&& 0x8000 ≠ 0 then ((crc <<< 1) ^^^ poly) &&& 0xFFFF
  else (crc <<< 1) &&& 0xFFFF

/-- One iteration of the `for byte in data` loop of `NDTPMessage.crc16`
(lines 520-527): `crc ^= byte << 8`, then eight shift rounds. -/
def crcByte (poly : Nat) (crc b : Nat) : Nat :=
  (crcRound poly)^[8] (crc ^^^ (b <<< 8))

/-- `NDTPMessage.crc16` (lines 514-529); callers use the default
`poly=0x8005, init=0xFFFF`. -/
def NDTPMessage.crc16 (data : List Nat) (poly init : Nat) : Nat :=
  (data.foldl (crcByte poly) init) &&& 0xFFFF

/-- `NDTPMessage.crc16_verify` (lines 531-534). -/
def NDTPMessage.crc16_verify (data : List Nat) (crc : Nat) : Bool :=
  NDTPMessage.crc16 data 0x8005 0xFFFF = crc

/-- `NDTPMessage.pack` (lines 536-551): header bytes, payload bytes, then the
CRC-16 of their concatenation appended as 2 little-endian bytes (`"<H"`). -/
def NDTPMessage.pack (m : NDTPMessage) : Except Err (List Nat) := do
  let headerBytes ← m.header.pack
  let payloadBytes ←
    match m.payload with
    | some p => p.pack
    | none => .ok []
  let message := headerBytes ++ payloadBytes
  let crc := NDTPMessage.crc16 message 0x8005 0xFFFF
  .ok (message ++ leBytes 2 crc)

/-- The header-parse and payload-decode phase of `NDTPMessage.unpack`
(lines 565-576): parse the header from the first 15 bytes, dispatch the bytes
between header and trailing CRC on `header.data_type`. -/
def NDTPMessage.parse (data : List Nat) : Except Err (NDTPHeader × NDTPPayload) := do
  let header ← NDTPHeader.unpack (data.take NDTPHeader_STRUCT_size)
  let pbytes := (data.drop NDTPHeader_STRUCT_size).take
    (data.length - 2 - NDTPHeader_STRUCT_size)
  if header.data_type = DataType_kBroadband then
    (NDTPPayloadBroadband.unpack pbytes).map fun p => (header, .broadband p)
  else if header.data_type = DataType_kSpiketrain then
    (NDTPPayloadSpiketrain.unpack pbytes).map fun p => (header, .spiketrain p)
  else .error .unknownDataType

/-- `NDTPMessage.unpack` (lines 553-581): parse (header then payload), then
verify the CRC carried in the last 2 bytes against the CRC recomputed over
everything before them. -/
def NDTPMessage.unpack (data : List Nat) : Except Err NDTPMessage := do
  let hp ← NDTPMessage.parse data
  let crcValue := leVal (data.drop (data.length - 2))
  if NDTPMessage.crc16_verify (data.take (data.length - 2)) crcValue then
    .ok ⟨hp.1, some hp.2⟩
  else .error .checksumError

/-! ## Validity predicates (the constructible, packable states) -/

/-- A channel the broadband codec can carry: 3-byte id, 2-byte sample count,
samples within the declared width.  The sample list must be non-empty: a
zero-sample channel makes the decoder call `to_ints` with `count = 0` on an
empty slice, which raises the `cython.view.array` zero-shape `ValueError`
(and `ChannelData(id, [])` itself cannot be constructed from a list, the
empty memoryview raising the same way). -/
def validChannel (s : Bool) (w : Nat) (ch : ChannelData) : Prop :=
  ch.channel_id < 2 ^ 24 ∧ 0 < ch.channel_data.length ∧
    ch.channel_data.length < 2 ^ 16 ∧
    ∀ v ∈ ch.channel_data, inRange s w v

instance (s : Bool) (w : Nat) (ch : ChannelData) : Decidable (validChannel s w ch) := by
  unfold validChannel; infer_instance

/-- A broadband payload the codec round-trips: width 1–24 (the spec's boundary
widths; the single payload byte could carry up to 127, while the C `int`
accumulators of the Cython build are only safe well below 32), 2-byte sample
rate, 3-byte channel count. -/
def validBroadband (p : NDTPPayloadBroadband) : Prop :=
  1 ≤ p.bit_width ∧ p.bit_width ≤ 24 ∧ p.sample_rate < 2 ^ 16 ∧
    p.channels.length < 2 ^ 24 ∧ ∀ ch ∈ p.channels, validChannel p.is_signed p.bit_width ch

instance (p : NDTPPayloadBroadband) : Decidable (validBroadband p) := by
  unfold validBroadband; infer_instance

/-- A spiketrain payload the codec round-trips: a non-empty list of counts
within the fixed 2-bit unsigned width.  Non-emptiness is required: with
`num_spikes = 0` the decoder calls `to_ints` with `count = 0` on an empty
slice, which raises the `cython.view.array` zero-shape `ValueError` (and
`NDTPPayloadSpiketrain([])` itself cannot be constructed from a list). -/
def validSpiketrain (p : NDTPPayloadSpiketrain) : Prop :=
  0 < p.spike_counts.length ∧ p.spike_counts.length < 2 ^ 32 ∧
    ∀ c ∈ p.spike_counts, 0 ≤ c ∧ c ≤ 3

instance (p : NDTPPayloadSpiketrain) : Decidable (validSpiketrain p) := by
  unfold validSpiketrain; infer_instance

/-- A message the codec round-trips: constructible header fields (`timestamp`
is a C `long long`, `seq_number` must fit the 2-byte `H` field), a payload
present, matching `data_type`, and a valid payload. -/
def validMessage : NDTPMessage → Prop
  | ⟨h, some (.broadband p)⟩ =>
      h.timestamp < 2 ^ 63 ∧ h.seq_number < 2 ^ 16 ∧
      h.data_type = DataType_kBroadband ∧ validBroadband p
  | ⟨h, some (.spiketrain p)⟩ =>
      h.timestamp < 2 ^ 63 ∧ h.seq_number < 2 ^ 16 ∧
      h.data_type = DataType_kSpiketrain ∧ validSpiketrain p
  | ⟨_, none⟩ => False

instance : ∀ m : NDTPMessage, Decidable (validMessage m)
  | ⟨_, some (.broadband _)⟩ => by unfold validMessage; infer_instance
  | ⟨_, some (.spiketrain _)⟩ => by unfold validMessage; infer_instance
  | ⟨_, none⟩ => by unfold validMessage; exact instDecidableFalse

/-! ## Round-trip lemmas for each codec layer -/

theorem mem_lt_of_getD (l : List Nat) (h : ∀ i, l.getD i 0 < 256) :
    ∀ b ∈ l, b < 256 := by
  intro b hb
  obtain ⟨i, hi, rfl⟩ := List.getElem_of_mem hb
  have := h i
  rwa [List.getD_eq_getElem?_getD, List.getElem?_eq_getElem hi, Option.getD_some] at this

/-- Header pack/unpack: 15 little-endian bytes, recovered exactly. -/
theorem NDTPHeader_roundtrip (h : NDTPHeader)
    (hdt : h.data_type < 2 ^ 32) (hts : h.timestamp < 2 ^ 64)
    (hsq : h.seq_number < 2 ^ 16) :
    NDTPHeader.pack h = .ok (NDTP_VERSION :: (leBytes 4 h.data_type ++
      leBytes 8 h.timestamp ++ leBytes 2 h.seq_number)) ∧
    (NDTP_VERSION :: (leBytes 4 h.data_type ++ leBytes 8 h.timestamp ++
      leBytes 2 h.seq_number)).length = 15 ∧
    (∀ b ∈ NDTP_VERSION :: (leBytes 4 h.data_type ++ leBytes 8 h.timestamp ++
      leBytes 2 h.seq_number), b < 256) ∧
    NDTPHeader.unpack (NDTP_VERSION :: (leBytes 4 h.data_type ++
      leBytes 8 h.timestamp ++ leBytes 2 h.seq_number)) = .ok h := by
  have hpack : NDTPHeader.pack h = .ok (NDTP_VERSION :: (leBytes 4 h.data_type ++
      leBytes 8 h.timestamp ++ leBytes 2 h.seq_number)) := by
    unfold NDTPHeader.pack
    rw [if_pos ⟨hdt, hts, hsq⟩]
  have hlen : (NDTP_VERSION :: (leBytes 4 h.data_type ++ leBytes 8 h.timestamp ++
      leBytes 2 h.seq_number)).length = 15 := by simp
  refine ⟨hpack, hlen, ?_, ?_⟩
  · intro b hb
    rcases List.mem_cons.mp hb with rfl | hb
    · norm_num [NDTP_VERSION]
    · rcases List.mem_append.mp hb with hb | hb
      · rcases List.mem_append.mp hb with hb | hb
        · exact leBytes_lt _ _ b hb
        · exact leBytes_lt _ _ b hb
      · exact leBytes_lt _ _ b hb
  · unfold NDTPHeader.unpack NDTPHeader_STRUCT_size
    rw [if_neg (by rw [hlen]; norm_num)]
    have hsplit1 : NDTP_VERSION :: (leBytes 4 h.data_type ++ leBytes 8 h.timestamp ++
        leBytes 2 h.seq_number) =
        (NDTP_VERSION :: leBytes 4 h.data_type) ++
          (leBytes 8 h.timestamp ++ leBytes 2 h.seq_number) := by simp
    have hsplit2 : NDTP_VERSION :: (leBytes 4 h.data_type ++ leBytes 8 h.timestamp ++
        leBytes 2 h.seq_number) =
        ((NDTP_VERSION :: leBytes 4 h.data_type) ++ leBytes 8 h.timestamp) ++
          leBytes 2 h.seq_number := by simp
    have hd1 : (NDTP_VERSION :: (leBytes 4 h.data_type ++ leBytes 8 h.timestamp ++
        leBytes 2 h.seq_number)).drop 1 =
        leBytes 4 h.data_type ++ (leBytes 8 h.timestamp ++ leBytes 2 h.seq_number) := by
      simp
    have hd5 : (NDTP_VERSION :: (leBytes 4 h.data_type ++ leBytes 8 h.timestamp ++
        leBytes 2 h.seq_number)).drop 5 =
        leBytes 8 h.timestamp ++ leBytes 2 h.seq_number := by
      rw [hsplit1]
      exact List.drop_left' (by simp)
    have hd13 : (NDTP_VERSION :: (leBytes 4 h.data_type ++ leBytes 8 h.timestamp ++
        leBytes 2 h.seq_number)).drop 13 = leBytes 2 h.seq_number := by
      rw [hsplit2]
      exact List.drop_left' (by simp)
    rw [hd1, hd5, hd13]
    rw [List.take_left' (leBytes_length 4 _), List.take_left' (leBytes_length 8 _),
      List.take_of_length_le (by simp)]
    rw [leVal_leBytes 4 _ (by norm_num at hdt ⊢; omega),
      leVal_leBytes 8 _ (by norm_num at hts ⊢; omega),
      leVal_leBytes 2 _ (by norm_num at hsq ⊢; omega)]
    have hv : ¬((NDTP_VERSION :: (leBytes 4 h.data_type ++ leBytes 8 h.timestamp ++
        leBytes 2 h.seq_number)).getD 0 0 ≠ NDTP_VERSION) := by
      simp
    rw [if_neg hv]

/-- Spiketrain pack/unpack round trip. -/
theorem NDTPPayloadSpiketrain_roundtrip (p : NDTPPayloadSpiketrain)
    (hvalid : validSpiketrain p) :
    ∃ bs, NDTPPayloadSpiketrain.pack p = .ok bs ∧ (∀ b ∈ bs, b < 256) ∧
      NDTPPayloadSpiketrain.unpack bs = .ok p := by
  obtain ⟨hpos, hlen32, hcnt⟩ := hvalid
  have hrange : ∀ c ∈ p.spike_counts, inRange false NDTPPayloadSpiketrain_BIT_WIDTH c := by
    intro c hc
    have := hcnt c hc
    unfold inRange minValue maxValue NDTPPayloadSpiketrain_BIT_WIDTH
    norm_num
    omega
  obtain ⟨body, hpackb, hblen, hbbound, -⟩ :=
    to_bytes_fresh_big_spec false NDTPPayloadSpiketrain_BIT_WIDTH p.spike_counts hrange
  have hpack : NDTPPayloadSpiketrain.pack p =
      .ok (leBytes 4 p.spike_counts.length ++ body) := by
    unfold NDTPPayloadSpiketrain.pack
    rw [if_pos hlen32, hpackb]
    rfl
  refine ⟨leBytes 4 p.spike_counts.length ++ body, hpack, ?_, ?_⟩
  · intro b hb
    rcases List.mem_append.mp hb with hb | hb
    · exact leBytes_lt _ _ b hb
    · exact mem_lt_of_getD body hbbound b hb
  · unfold NDTPPayloadSpiketrain.unpack
    rw [if_neg (by simp)]
    rw [List.take_left' (leBytes_length 4 _), List.drop_left' (leBytes_length 4 _)]
    rw [leVal_leBytes 4 _ (by norm_num at hlen32 ⊢; omega)]
    have hbn : (p.spike_counts.length * NDTPPayloadSpiketrain_BIT_WIDTH + 7) / 8 =
        body.length := hblen.symm
    rw [if_neg (by rw [hbn]; omega)]
    rw [hbn, List.take_of_length_le (le_refl _)]
    rw [to_ints_of_to_bytes false NDTPPayloadSpiketrain_BIT_WIDTH p.spike_counts body
      ((p.spike_counts.length * NDTPPayloadSpiketrain_BIT_WIDTH) % 8)
      (by norm_num [NDTPPayloadSpiketrain_BIT_WIDTH]) hpos hrange hpackb]
    rfl

/-- Per-channel pack/parse round trip: the channel blocks parse back exactly,
with anything appended after them. -/
theorem packChannels_roundtrip (s : Bool) (w : Nat) (hw : 0 < w) :
    ∀ chs : List ChannelData,
      (∀ ch ∈ chs, validChannel s w ch) →
      ∃ body, packChannels s w chs = .ok body ∧ (∀ b ∈ body, b < 256) ∧
        ∀ rest, parseChannels s w chs.length (body ++ rest) = .ok chs := by
  intro chs
  induction chs with
  | nil =>
      intro _
      exact ⟨[], rfl, by simp, fun rest => rfl⟩
  | cons ch chs ih =>
      intro hvalid
      obtain ⟨hid, hcpos, hclen, hrange⟩ := hvalid ch (by simp)
      obtain ⟨body, hbody, hbbound, hparse⟩ := ih (fun c hc => hvalid c (by simp [hc]))
      obtain ⟨sb, hsb, hsblen, hsbbound, -⟩ := to_bytes_fresh_big_spec s w ch.channel_data hrange
      have hpack : packChannels s w (ch :: chs) =
          .ok (beBytes 3 ch.channel_id ++ beBytes 2 ch.channel_data.length ++ sb ++ body) := by
        rw [packChannels, if_pos hid, if_pos hclen, hsb]
        show (packChannels s w chs).bind _ = _
        rw [hbody]
        rfl
      refine ⟨_, hpack, ?_, ?_⟩
      · intro b hb
        rcases List.mem_append.mp hb with hb | hb
        · rcases List.mem_append.mp hb with hb | hb
          · rcases List.mem_append.mp hb with hb | hb
            · exact beBytes_lt _ _ b hb
            · exact beBytes_lt _ _ b hb
          · exact mem_lt_of_getD sb hsbbound b hb
        · exact hbbound b hb
      · intro rest
        show parseChannels s w (chs.length + 1) _ = _
        rw [parseChannels]
        have hassoc : beBytes 3 ch.channel_id ++ beBytes 2 ch.channel_data.length ++
            sb ++ body ++ rest =
            beBytes 3 ch.channel_id ++ (beBytes 2 ch.channel_data.length ++
              (sb ++ (body ++ rest))) := by
          simp
        rw [hassoc]
        rw [if_neg (by simp)]
        rw [List.take_left' (beBytes_length 3 _), List.drop_left' (beBytes_length 3 _)]
        rw [if_neg (by simp)]
        rw [List.take_left' (beBytes_length 2 _), List.drop_left' (beBytes_length 2 _)]
        rw [beVal_beBytes 3 _ (by norm_num at hid ⊢; omega),
          beVal_beBytes 2 _ (by norm_num at hclen ⊢; omega)]
        have hbn : (ch.channel_data.length * w + 7) / 8 = sb.length := hsblen.symm
        rw [if_neg (by rw [hbn]; simp)]
        rw [hbn, List.take_left, List.drop_left]
        rw [to_ints_of_to_bytes s w ch.channel_data sb
          ((ch.channel_data.length * w) % 8) hw hcpos hrange hsb]
        show (parseChannels s w chs.length (body ++ rest)).bind _ = _
        rw [hparse rest]
        rfl

/-- Recovery of `bit_width` and the signed flag from the broadband payload's
first byte `((bit_width & 0x7F) << 1) | is_signed`. -/
theorem byte0_recover (w s01 : Nat) (hw : w ≤ 127) (hs : s01 ≤ 1) :
    ((((w &&& 0x7F) <<< 1) ||| s01) >>> 1 = w) ∧
    ((((w &&& 0x7F) <<< 1) ||| s01) &&& 1 = s01) := by
  have hmask : w &&& 0x7F = w := by
    have h1 : (0x7F : Nat) = 2 ^ 7 - 1 := by norm_num
    rw [h1, Nat.and_pow_two_sub_one_eq_mod]
    omega
  have hshift : (w <<< 1) = 2 ^ 1 * w := by
    rw [Nat.shiftLeft_eq]
    ring
  have hor : (w <<< 1) ||| s01 = 2 * w + s01 := by
    rw [hshift, ← Nat.mul_add_lt_is_or (by omega) w]
  rw [hmask, hor]
  constructor
  · rw [Nat.shiftRight_eq_div_pow]
    omega
  · have h1 : (1 : Nat) = 2 ^ 1 - 1 := by norm_num
    rw [h1, Nat.and_pow_two_sub_one_eq_mod]
    omega

/-- Broadband pack/unpack round trip. -/
theorem NDTPPayloadBroadband_roundtrip (p : NDTPPayloadBroadband)
    (hvalid : validBroadband p) :
    ∃ bs, NDTPPayloadBroadband.pack p = .ok bs ∧ (∀ b ∈ bs, b < 256) ∧
      bs.length = 6 + bs.length - 6 ∧
      NDTPPayloadBroadband.unpack bs = .ok p := by
  obtain ⟨hw1, hw24, hsr, hnch, hchs⟩ := hvalid
  obtain ⟨body, hbody, hbbound, hparse⟩ :=
    packChannels_roundtrip p.is_signed p.bit_width (by omega) p.channels hchs
  set s01 : Nat := if p.is_signed then 1 else 0 with hs01
  have hs01le : s01 ≤ 1 := by rw [hs01]; split <;> norm_num
  set b0 : Nat := ((p.bit_width &&& 0x7F) <<< 1) ||| s01 with hb0
  obtain ⟨hrecw, hrecs⟩ := byte0_recover p.bit_width s01 (by omega) hs01le
  have hpack : NDTPPayloadBroadband.pack p =
      .ok (b0 :: (beBytes 3 p.channels.length ++ beBytes 2 p.sample_rate ++ body)) := by
    unfold NDTPPayloadBroadband.pack
    rw [if_pos hnch, if_pos hsr, hbody]
    rfl
  refine ⟨_, hpack, ?_, by simp, ?_⟩
  · intro b hb
    rcases List.mem_cons.mp hb with rfl | hb
    · rw [hb0]
      have hm : p.bit_width &&& 0x7F ≤ 0x7F := Nat.and_le_right
      have : (p.bit_width &&& 0x7F) <<< 1 ≤ 254 := by
        rw [Nat.shiftLeft_eq]
        omega
      have hor8 : ((p.bit_width &&& 0x7F) <<< 1) ||| s01 < 2 ^ 8 :=
        Nat.or_lt_two_pow (by omega) (by omega)
      omega
    · rcases List.mem_append.mp hb with hb | hb
      · rcases List.mem_append.mp hb with hb | hb
        · exact beBytes_lt _ _ b hb
        · exact beBytes_lt _ _ b hb
      · exact hbbound b hb
  · unfold NDTPPayloadBroadband.unpack
    rw [if_neg (by simp; omega)]
    rw [← hb0] at hrecw hrecs
    have hnch' : p.channels.length < 256 ^ 3 := by norm_num at hnch ⊢; omega
    have hsr' : p.sample_rate < 256 ^ 2 := by norm_num at hsr ⊢; omega
    have hsigned : (decide (s01 = 1)) = p.is_signed := by
      rw [hs01]
      cases p.is_signed <;> simp
    have hbody' : parseChannels p.is_signed p.bit_width p.channels.length body =
        Except.ok p.channels := by
      have h0 : body = body ++ [] := by simp
      rw [h0, hparse []]
    have hgd0 : (b0 :: (beBytes 3 p.channels.length ++ beBytes 2 p.sample_rate ++
        body)).getD 0 0 = b0 := rfl
    have hd1 : (b0 :: (beBytes 3 p.channels.length ++ beBytes 2 p.sample_rate ++
        body)).drop 1 = beBytes 3 p.channels.length ++ (beBytes 2 p.sample_rate ++ body) := by
      simp
    have hd4 : (b0 :: (beBytes 3 p.channels.length ++ beBytes 2 p.sample_rate ++
        body)).drop 4 = beBytes 2 p.sample_rate ++ body := by
      rw [show b0 :: (beBytes 3 p.channels.length ++ beBytes 2 p.sample_rate ++ body) =
        (b0 :: beBytes 3 p.channels.length) ++ (beBytes 2 p.sample_rate ++ body) by simp]
      exact List.drop_left' (by simp)
    have hd6 : (b0 :: (beBytes 3 p.channels.length ++ beBytes 2 p.sample_rate ++
        body)).drop 6 = body := by
      rw [show b0 :: (beBytes 3 p.channels.length ++ beBytes 2 p.sample_rate ++ body) =
        ((b0 :: beBytes 3 p.channels.length) ++ beBytes 2 p.sample_rate) ++ body by simp]
      exact List.drop_left' (by simp)
    simp only [hgd0, hd1, hd4, hd6, hrecw, hrecs,
      List.take_left' (beBytes_length 3 p.channels.length),
      List.take_left' (beBytes_length 2 p.sample_rate),
      beVal_beBytes 3 p.channels.length hnch',
      beVal_beBytes 2 p.sample_rate hsr',
      hsigned, hbody', Except.map]

theorem crc16_lt (data : List Nat) (poly init : Nat) :
    NDTPMessage.crc16 data poly init < 2 ^ 16 := by
  unfold NDTPMessage.crc16
  have h : data.foldl (crcByte poly) init &&& 0xFFFF ≤ 0xFFFF := Nat.and_le_right
  omega

/-- Message pack/unpack round trip, with the packed bytes exposed as
`message ++ crc16(message)` for the corruption lemmas. -/
theorem NDTPMessage_pack_spec (m : NDTPMessage) (hvalid : validMessage m) :
    ∃ mb, NDTPMessage.pack m =
        .ok (mb ++ leBytes 2 (NDTPMessage.crc16 mb 0x8005 0xFFFF)) ∧
      15 ≤ mb.length ∧ (∀ b ∈ mb, b < 256) ∧
      NDTPMessage.unpack (mb ++ leBytes 2 (NDTPMessage.crc16 mb 0x8005 0xFFFF)) = .ok m := by
  obtain ⟨h, payload⟩ := m
  have hunpack_common : ∀ (hb pb : List Nat) (pl : NDTPPayload),
      hb.length = 15 →
      NDTPHeader.unpack hb = .ok h →
      ((h.data_type = DataType_kBroadband ∧
          ∃ q, pl = .broadband q ∧ NDTPPayloadBroadband.unpack pb = .ok q) ∨
        (h.data_type = DataType_kSpiketrain ∧
          ∃ q, pl = .spiketrain q ∧ NDTPPayloadSpiketrain.unpack pb = .ok q)) →
      NDTPMessage.unpack ((hb ++ pb) ++
        leBytes 2 (NDTPMessage.crc16 (hb ++ pb) 0x8005 0xFFFF)) = .ok ⟨h, some pl⟩ := by
    intro hb pb pl hhblen hhb hdisp
    set crc := NDTPMessage.crc16 (hb ++ pb) 0x8005 0xFFFF with hcrc
    have hlen : ((hb ++ pb) ++ leBytes 2 crc).length = hb.length + pb.length + 2 := by
      simp
      omega
    have htake15 : ((hb ++ pb) ++ leBytes 2 crc).take 15 = hb := by
      rw [List.append_assoc]
      exact List.take_left' hhblen
    have hdrop15 : ((hb ++ pb) ++ leBytes 2 crc).drop 15 = pb ++ leBytes 2 crc := by
      rw [List.append_assoc]
      exact List.drop_left' hhblen
    have hpbytes : (((hb ++ pb) ++ leBytes 2 crc).drop 15).take
        (((hb ++ pb) ++ leBytes 2 crc).length - 2 - 15) = pb := by
      rw [hdrop15, hlen]
      have : hb.length + pb.length + 2 - 2 - 15 = pb.length := by omega
      rw [this]
      exact List.take_left pb _
    have hparse : NDTPMessage.parse ((hb ++ pb) ++ leBytes 2 crc) = .ok (h, pl) := by
      unfold NDTPMessage.parse NDTPHeader_STRUCT_size
      rw [htake15]
      rw [hhb]
      show (if h.data_type = DataType_kBroadband then _ else _) = _
      rcases hdisp with ⟨hdt, q, rfl, hq⟩ | ⟨hdt, q, rfl, hq⟩
      · rw [if_pos hdt]
        rw [hpbytes, hq]
        rfl
      · rw [if_neg (by rw [hdt]; norm_num [DataType_kBroadband, DataType_kSpiketrain])]
        rw [if_pos hdt]
        rw [hpbytes, hq]
        rfl
    unfold NDTPMessage.unpack
    rw [hparse]
    have hdroplast : ((hb ++ pb) ++ leBytes 2 crc).drop
        (((hb ++ pb) ++ leBytes 2 crc).length - 2) = leBytes 2 crc := by
      rw [hlen]
      have h2 : hb.length + pb.length + 2 - 2 = (hb ++ pb).length := by simp
      rw [h2]
      exact List.drop_left _ _
    have htakelast : ((hb ++ pb) ++ leBytes 2 crc).take
        (((hb ++ pb) ++ leBytes 2 crc).length - 2) = hb ++ pb := by
      rw [hlen]
      have h2 : hb.length + pb.length + 2 - 2 = (hb ++ pb).length := by simp
      rw [h2]
      exact List.take_left _ _
    show Except.bind _ _ = _
    rw [Except.bind]
    simp only [hdroplast, htakelast]
    rw [leVal_leBytes 2 crc (by have := crc16_lt (hb ++ pb) 0x8005 0xFFFF; norm_num at this ⊢; omega)]
    have hverify : NDTPMessage.crc16_verify (hb ++ pb) crc = true := by
      unfold NDTPMessage.crc16_verify
      rw [hcrc]
      simp
    rw [hverify]
    rfl
  cases payload with
  | none => exact absurd hvalid (by unfold validMessage; simp)
  | some pl =>
    cases pl with
    | broadband p =>
        obtain ⟨hts, hsq, hdt, hp⟩ : h.timestamp < 2 ^ 63 ∧ h.seq_number < 2 ^ 16 ∧
            h.data_type = DataType_kBroadband ∧ validBroadband p := hvalid
        obtain ⟨hph, hhblen, hhbbound, hhbunpack⟩ := NDTPHeader_roundtrip h
          (by rw [hdt]; norm_num [DataType_kBroadband]) (by norm_num at hts ⊢; omega) hsq
        obtain ⟨pb, hpp, hpbbound, -, hpbunpack⟩ := NDTPPayloadBroadband_roundtrip p hp
        set hb := NDTP_VERSION :: (leBytes 4 h.data_type ++ leBytes 8 h.timestamp ++
          leBytes 2 h.seq_number) with hhbdef
        have hpackeq : NDTPMessage.pack ⟨h, some (.broadband p)⟩ =
            Except.bind h.pack (fun hb' => Except.bind p.pack (fun pb' =>
              .ok ((hb' ++ pb') ++
                leBytes 2 (NDTPMessage.crc16 (hb' ++ pb') 0x8005 0xFFFF)))) := rfl
        refine ⟨hb ++ pb, ?_, by simp [hhblen], ?_, ?_⟩
        · rw [hpackeq, hph]
          simp only [Except.bind]
          rw [hpp]
        · intro b hb'
          rcases List.mem_append.mp hb' with hbm | hbm
          · exact hhbbound b hbm
          · exact hpbbound b hbm
        · exact hunpack_common hb pb (.broadband p) hhblen hhbunpack
            (Or.inl ⟨hdt, p, rfl, hpbunpack⟩)
    | spiketrain p =>
        obtain ⟨hts, hsq, hdt, hp⟩ : h.timestamp < 2 ^ 63 ∧ h.seq_number < 2 ^ 16 ∧
            h.data_type = DataType_kSpiketrain ∧ validSpiketrain p := hvalid
        obtain ⟨hph, hhblen, hhbbound, hhbunpack⟩ := NDTPHeader_roundtrip h
          (by rw [hdt]; norm_num [DataType_kSpiketrain]) (by norm_num at hts ⊢; omega) hsq
        obtain ⟨pb, hpp, hpbbound, hpbunpack⟩ := NDTPPayloadSpiketrain_roundtrip p hp
        set hb := NDTP_VERSION :: (leBytes 4 h.data_type ++ leBytes 8 h.timestamp ++
          leBytes 2 h.seq_number) with hhbdef
        have hpackeq : NDTPMessage.pack ⟨h, some (.spiketrain p)⟩ =
            Except.bind h.pack (fun hb' => Except.bind p.pack (fun pb' =>
              .ok ((hb' ++ pb') ++
                leBytes 2 (NDTPMessage.crc16 (hb' ++ pb') 0x8005 0xFFFF)))) := rfl
        refine ⟨hb ++ pb, ?_, by simp [hhblen], ?_, ?_⟩
        · rw [hpackeq, hph]
          simp only [Except.bind]
          rw [hpp]
        · intro b hb'
          rcases List.mem_append.mp hb' with hbm | hbm
          · exact hhbbound b hbm
          · exact hpbbound b hbm
        · exact hunpack_common hb pb (.spiketrain p) hhblen hhbunpack
            (Or.inr ⟨hdt, p, rfl, hpbunpack⟩)

/-! ## CRC-16 single-bit-flip sensitivity -/

/-- Corruption model: flip bit `k` of byte `i`. -/
def flipBit (data : List Nat) (i k : Nat) : List Nat :=
  data.set i ((data.getD i 0) ^^^ (1 <<< k))

/-- The top bit of a value below `2 ^ (n + 1)`. -/
theorem testBit_top (n c : Nat) (h : c < 2 ^ (n + 1)) :
    c.testBit n = decide (2 ^ n ≤ c) := by
  rw [Nat.testBit_to_div_mod]
  have hd : c / 2 ^ n < 2 := by
    apply Nat.div_lt_of_lt_mul
    calc c < 2 ^ (n + 1) := h
      _ = 2 ^ n * 2 := by rw [pow_succ]
  rcases Nat.lt_or_ge c (2 ^ n) with hlt | hge
  · rw [Nat.div_eq_of_lt hlt]
    simp
    omega
  · have h1 : 1 ≤ c / 2 ^ n := (Nat.one_le_div_iff (Nat.two_pow_pos _)).mpr hge
    have h2 : c / 2 ^ n = 1 := by omega
    rw [h2]
    simp
    omega

theorem mask16 (x : Nat) : x &&& 0xFFFF = x % 2 ^ 16 := by
  have h : (0xFFFF : Nat) = 2 ^ 16 - 1 := by norm_num
  rw [h, Nat.and_pow_two_sub_one_eq_mod]

theorem crcRound_lt (poly c : Nat) : crcRound poly c < 2 ^ 16 := by
  unfold crcRound
  split <;> rw [mask16] <;> exact Nat.mod_lt _ (by positivity)

theorem and_top_iff (c : Nat) (hc : c < 2 ^ 16) :
    (c &&& 0x8000 ≠ 0) ↔ 2 ^ 15 ≤ c := by
  have h8 : (0x8000 : Nat) = 2 ^ 15 := by norm_num
  rw [h8, Nat.and_two_pow, testBit_top 15 c (by norm_num at hc ⊢; omega)]
  rcases Nat.lt_or_ge c (2 ^ 15) with h | h
  · simp [Nat.not_le.mpr h]
  · simp [h]

/-- One CRC shift round (with the codec's polynomial `0x8005`) is injective
on 16-bit states. -/
theorem crcRound_inj (c1 c2 : Nat) (h1 : c1 < 2 ^ 16) (h2 : c2 < 2 ^ 16)
    (heq : crcRound 0x8005 c1 = crcRound 0x8005 c2) : c1 = c2 := by
  unfold crcRound at heq
  have hparity : ∀ c : Nat, (((c <<< 1) ^^^ 0x8005) &&& 0xFFFF).testBit 0 = true ∧
      ((c <<< 1) &&& 0xFFFF).testBit 0 = false := by
    intro c
    rw [mask16, mask16, Nat.testBit_mod_two_pow, Nat.testBit_mod_two_pow, Nat.testBit_xor]
    have hsh : (c <<< 1).testBit 0 = false := by
      rw [Nat.testBit_shiftLeft]
      simp
    rw [hsh]
    simp
  by_cases b1 : c1 &&& 0x8000 ≠ 0 <;> by_cases b2 : c2 &&& 0x8000 ≠ 0
  · -- both top bits set
    rw [if_pos b1, if_pos b2, mask16, mask16] at heq
    have hc1 : 2 ^ 15 ≤ c1 := (and_top_iff c1 h1).mp b1
    have hc2 : 2 ^ 15 ≤ c2 := (and_top_iff c2 h2).mp b2
    have hbits : ∀ i, c1.testBit i = c2.testBit i := by
      intro i
      rcases Nat.lt_or_ge i 15 with hi | hi
      · have := congrArg (fun x => x.testBit (i + 1)) heq
        simp only [Nat.testBit_mod_two_pow, Nat.testBit_xor, Nat.testBit_shiftLeft] at this
        have hlt : i + 1 < 16 := by omega
        have hge1 : 1 ≤ i + 1 := by omega
        simp only [decide_eq_true hlt, decide_eq_true hge1, Bool.true_and] at this
        have hred : i + 1 - 1 = i := by omega
        rw [hred] at this
        rcases hb : (0x8005 : Nat).testBit (i + 1) with _ | _ <;>
          rw [hb] at this <;>
          rcases ht1 : c1.testBit i with _ | _ <;>
            rcases ht2 : c2.testBit i with _ | _ <;>
            rw [ht1, ht2] at this <;> simp at this
      · rcases Nat.eq_or_lt_of_le hi with hi15 | hi16
        · rw [← hi15]
          rw [testBit_top 15 c1 (by norm_num at h1 ⊢; omega),
            testBit_top 15 c2 (by norm_num at h2 ⊢; omega)]
          rw [decide_eq_true hc1, decide_eq_true hc2]
        · rw [Nat.testBit_lt_two_pow (Nat.lt_of_lt_of_le h1 (Nat.pow_le_pow_right (by norm_num) hi16)),
            Nat.testBit_lt_two_pow (Nat.lt_of_lt_of_le h2 (Nat.pow_le_pow_right (by norm_num) hi16))]
    exact Nat.eq_of_testBit_eq hbits
  · rw [if_pos b1, if_neg b2] at heq
    have hT := (hparity c1).1
    rw [heq, (hparity c2).2] at hT
    exact absurd hT (by simp)
  · rw [if_neg b1, if_pos b2] at heq
    have hT := (hparity c2).1
    rw [← heq, (hparity c1).2] at hT
    exact absurd hT (by simp)
  · rw [if_neg b1, if_neg b2, mask16, mask16] at heq
    have hc1 : c1 < 2 ^ 15 := by
      have := (and_top_iff c1 h1)
      omega
    have hc2 : c2 < 2 ^ 15 := by
      have := (and_top_iff c2 h2)
      omega
    rw [Nat.shiftLeft_eq, Nat.shiftLeft_eq] at heq
    rw [Nat.mod_eq_of_lt (by norm_num at hc1 ⊢; omega),
      Nat.mod_eq_of_lt (by norm_num at hc2 ⊢; omega)] at heq
    omega

theorem crcRound_iterate_lt (poly c n : Nat) (h : c < 2 ^ 16) :
    (crcRound poly)^[n] c < 2 ^ 16 := by
  induction n generalizing c with
  | zero => simpa
  | succ n ih =>
      rw [Function.iterate_succ_apply]
      exact ih _ (crcRound_lt poly c)

theorem crcRound_iterate_inj (n : Nat) :
    ∀ c1 c2 : Nat, c1 < 2 ^ 16 → c2 < 2 ^ 16 →
      (crcRound 0x8005)^[n] c1 = (crcRound 0x8005)^[n] c2 → c1 = c2 := by
  induction n with
  | zero => intro c1 c2 _ _ h; simpa using h
  | succ n ih =>
      intro c1 c2 h1 h2 heq
      rw [Function.iterate_succ_apply, Function.iterate_succ_apply] at heq
      exact crcRound_inj c1 c2 h1 h2
        (ih _ _ (crcRound_lt _ _) (crcRound_lt _ _) heq)

theorem crcByte_lt (poly c b : Nat) (hc : c < 2 ^ 16) (hb : b < 256) :
    crcByte poly c b < 2 ^ 16 := by
  unfold crcByte
  apply crcRound_iterate_lt
  apply Nat.xor_lt_two_pow hc
  rw [Nat.shiftLeft_eq]
  norm_num at hb ⊢
  omega

theorem crcByte_inj_state (c1 c2 b : Nat) (h1 : c1 < 2 ^ 16) (h2 : c2 < 2 ^ 16)
    (hb : b < 256) (heq : crcByte 0x8005 c1 b = crcByte 0x8005 c2 b) : c1 = c2 := by
  unfold crcByte at heq
  have hx1 : c1 ^^^ (b <<< 8) < 2 ^ 16 := by
    apply Nat.xor_lt_two_pow h1
    rw [Nat.shiftLeft_eq]
    norm_num at hb ⊢
    omega
  have hx2 : c2 ^^^ (b <<< 8) < 2 ^ 16 := by
    apply Nat.xor_lt_two_pow h2
    rw [Nat.shiftLeft_eq]
    norm_num at hb ⊢
    omega
  have := crcRound_iterate_inj 8 _ _ hx1 hx2 heq
  have h' := congrArg (fun x => x ^^^ (b <<< 8)) this
  simpa [Nat.xor_cancel_right] using h'

theorem crcByte_inj_byte (c b1 b2 : Nat) (h1 : b1 < 256) (h2 : b2 < 256)
    (hc : c < 2 ^ 16)
    (heq : crcByte 0x8005 c b1 = crcByte 0x8005 c b2) : b1 = b2 := by
  unfold crcByte at heq
  have hx1 : c ^^^ (b1 <<< 8) < 2 ^ 16 := by
    apply Nat.xor_lt_two_pow hc
    rw [Nat.shiftLeft_eq]
    norm_num at h1 ⊢
    omega
  have hx2 : c ^^^ (b2 <<< 8) < 2 ^ 16 := by
    apply Nat.xor_lt_two_pow hc
    rw [Nat.shiftLeft_eq]
    norm_num at h2 ⊢
    omega
  have hxeq := crcRound_iterate_inj 8 _ _ hx1 hx2 heq
  have h' := congrArg (fun x => c ^^^ x) hxeq
  simp only [Nat.xor_cancel_left] at h'
  have := congrArg (fun x => x >>> 8) h'
  simp only [Nat.shiftLeft_shiftRight] at this
  exact this

theorem crc_foldl_lt (data : List Nat) (c : Nat) (hc : c < 2 ^ 16)
    (hbytes : ∀ b ∈ data, b < 256) : data.foldl (crcByte 0x8005) c < 2 ^ 16 := by
  induction data generalizing c with
  | nil => simpa
  | cons b rest ih =>
      rw [List.foldl_cons]
      exact ih _ (crcByte_lt _ _ _ hc (hbytes b (by simp)))
        (fun x hx => hbytes x (by simp [hx]))

/-- Different CRC states stay different after absorbing the same bytes. -/
theorem crc_foldl_ne (data : List Nat) :
    ∀ c1 c2 : Nat, c1 < 2 ^ 16 → c2 < 2 ^ 16 → c1 ≠ c2 →
      (∀ b ∈ data, b < 256) →
      data.foldl (crcByte 0x8005) c1 ≠ data.foldl (crcByte 0x8005) c2 := by
  induction data with
  | nil => intro c1 c2 _ _ hne _; simpa using hne
  | cons b rest ih =>
      intro c1 c2 h1 h2 hne hbytes
      have hb : b < 256 := hbytes b (by simp)
      simp only [List.foldl_cons]
      apply ih _ _ (crcByte_lt _ _ _ h1 hb) (crcByte_lt _ _ _ h2 hb)
        (fun h => hne (crcByte_inj_state c1 c2 b h1 h2 hb h))
        (fun x hx => hbytes x (by simp [hx]))

/-- Flipping any single bit of any byte changes the CRC-16. -/
theorem crc16_flipBit_ne (data : List Nat) (i k : Nat)
    (hi : i < data.length) (hk : k < 8) (hbytes : ∀ b ∈ data, b < 256) :
    NDTPMessage.crc16 (flipBit data i k) 0x8005 0xFFFF ≠
      NDTPMessage.crc16 data 0x8005 0xFFFF := by
  have hb : data.getD i 0 < 256 := by
    apply hbytes
    rw [List.getD_eq_getElem?_getD, List.getElem?_eq_getElem hi, Option.getD_some]
    exact List.getElem_mem hi
  have hbflip : data.getD i 0 ^^^ (1 <<< k) < 256 := by
    have h2k : (1 <<< k) < 256 := by
      rw [Nat.shiftLeft_eq, Nat.one_mul]
      calc (2 : Nat) ^ k < 2 ^ 8 := Nat.pow_lt_pow_right (by norm_num) hk
        _ = 256 := by norm_num
    have := Nat.xor_lt_two_pow (show data.getD i 0 < 2 ^ 8 by norm_num at hb ⊢; omega)
      (show 1 <<< k < 2 ^ 8 by norm_num at h2k ⊢; omega)
    norm_num at this ⊢
    omega
  have hne : data.getD i 0 ^^^ (1 <<< k) ≠ data.getD i 0 := by
    intro h
    have := congrArg (fun x => x ^^^ data.getD i 0) h
    simp only [Nat.xor_comm _ (data.getD i 0), Nat.xor_cancel_left, Nat.xor_self] at this
    have h2 := congrArg (fun x => x >>> k) this
    simp only [Nat.shiftLeft_shiftRight, Nat.zero_shiftRight] at h2
    exact one_ne_zero h2
  have hgetD : data.getD i 0 = data[i] := by
    rw [List.getD_eq_getElem?_getD, List.getElem?_eq_getElem hi, Option.getD_some]
  have hsplit : data = data.take i ++ data.getD i 0 :: data.drop (i + 1) := by
    rw [hgetD]
    conv_lhs => rw [← List.take_append_drop i data]
    rw [List.drop_eq_getElem_cons hi]
  have hflip : flipBit data i k =
      data.take i ++ (data.getD i 0 ^^^ (1 <<< k)) :: data.drop (i + 1) := by
    unfold flipBit
    exact List.set_eq_take_cons_drop _ hi
  have htb : ∀ b ∈ data.take i, b < 256 :=
    fun b hb => hbytes b ((List.take_sublist i data).subset hb)
  have hdb : ∀ b ∈ data.drop (i + 1), b < 256 :=
    fun b hb => hbytes b ((List.drop_sublist (i + 1) data).subset hb)
  have hstate : (data.take i).foldl (crcByte 0x8005) 0xFFFF < 2 ^ 16 :=
    crc_foldl_lt _ _ (by norm_num) htb
  have hdiff : crcByte 0x8005 ((data.take i).foldl (crcByte 0x8005) 0xFFFF)
      (data.getD i 0 ^^^ (1 <<< k)) ≠
      crcByte 0x8005 ((data.take i).foldl (crcByte 0x8005) 0xFFFF) (data.getD i 0) :=
    fun h => hne (crcByte_inj_byte _ _ _ hbflip hb hstate h)
  have hfoldne := crc_foldl_ne (data.drop (i + 1)) _ _
    (crcByte_lt _ _ _ hstate hbflip) (crcByte_lt _ _ _ hstate hb) hdiff hdb
  have hlt1 : (data.drop (i + 1)).foldl (crcByte 0x8005)
      (crcByte 0x8005 ((data.take i).foldl (crcByte 0x8005) 0xFFFF)
        (data.getD i 0 ^^^ (1 <<< k))) < 2 ^ 16 :=
    crc_foldl_lt _ _ (crcByte_lt _ _ _ hstate hbflip) hdb
  have hlt2 : (data.drop (i + 1)).foldl (crcByte 0x8005)
      (crcByte 0x8005 ((data.take i).foldl (crcByte 0x8005) 0xFFFF)
        (data.getD i 0)) < 2 ^ 16 :=
    crc_foldl_lt _ _ (crcByte_lt _ _ _ hstate hb) hdb
  unfold NDTPMessage.crc16
  rw [hflip]
  conv_rhs => rw [hsplit]
  rw [List.foldl_append, List.foldl_append, List.foldl_cons, List.foldl_cons]
  rw [mask16, mask16, Nat.mod_eq_of_lt hlt1, Nat.mod_eq_of_lt hlt2]
  exact hfoldne

/-- Unpacking a packed message with any single bit of the header+payload
region flipped fails: with the exact error `ChecksumError` whenever the
header and payload still parse, and with the earlier parse error otherwise. -/
theorem unpack_flipBit_fails (mb : List Nat) (i k : Nat)
    (hlen : 15 ≤ mb.length) (hi : i < mb.length) (hk : k < 8)
    (hbytes : ∀ b ∈ mb, b < 256) :
    ((NDTPMessage.unpack (flipBit
        (mb ++ leBytes 2 (NDTPMessage.crc16 mb 0x8005 0xFFFF)) i k)).isOk = false) ∧
    (∀ r, NDTPMessage.parse (flipBit
        (mb ++ leBytes 2 (NDTPMessage.crc16 mb 0x8005 0xFFFF)) i k) = .ok r →
      NDTPMessage.unpack (flipBit
        (mb ++ leBytes 2 (NDTPMessage.crc16 mb 0x8005 0xFFFF)) i k) =
        .error .checksumError) := by
  set crc := NDTPMessage.crc16 mb 0x8005 0xFFFF with hcrcdef
  have hflipbs : flipBit (mb ++ leBytes 2 crc) i k = flipBit mb i k ++ leBytes 2 crc := by
    unfold flipBit
    rw [getD_append_left _ _ _ _ hi, List.set_append_left _ _ hi]
  have hfliplen : (flipBit mb i k).length = mb.length := by
    unfold flipBit
    simp
  have hcrclt : crc < 256 ^ 2 := by
    have := crc16_lt mb 0x8005 0xFFFF
    norm_num at this ⊢
    omega
  have hunpack_ok_case : ∀ r,
      NDTPMessage.parse (flipBit (mb ++ leBytes 2 crc) i k) = .ok r →
      NDTPMessage.unpack (flipBit (mb ++ leBytes 2 crc) i k) = .error .checksumError := by
    intro r hparse
    unfold NDTPMessage.unpack
    rw [hparse]
    rw [hflipbs]
    have hlen2 : (flipBit mb i k ++ leBytes 2 crc).length = mb.length + 2 := by
      simp [hfliplen]
    have hdrop : (flipBit mb i k ++ leBytes 2 crc).drop
        ((flipBit mb i k ++ leBytes 2 crc).length - 2) = leBytes 2 crc := by
      rw [hlen2, show mb.length + 2 - 2 = mb.length from by omega]
      exact List.drop_left' hfliplen
    have htake : (flipBit mb i k ++ leBytes 2 crc).take
        ((flipBit mb i k ++ leBytes 2 crc).length - 2) = flipBit mb i k := by
      rw [hlen2, show mb.length + 2 - 2 = mb.length from by omega]
      exact List.take_left' hfliplen
    show Except.bind _ _ = _
    rw [Except.bind]
    simp only [hdrop, htake]
    rw [leVal_leBytes 2 crc hcrclt]
    have hverify : NDTPMessage.crc16_verify (flipBit mb i k) crc = false := by
      unfold NDTPMessage.crc16_verify
      rw [hcrcdef]
      simp only [decide_eq_false_iff_not]
      exact crc16_flipBit_ne mb i k hi hk hbytes
    rw [hverify]
    rfl
  constructor
  · cases hparse : NDTPMessage.parse (flipBit (mb ++ leBytes 2 crc) i k) with
    | error e =>
        unfold NDTPMessage.unpack
        rw [hparse]
        rfl
    | ok r =>
        rw [hunpack_ok_case r hparse]
        rfl
  · exact hunpack_ok_case

/-! ## Frame and continuation properties of `to_bytes` with an existing buffer -/

/-- Success-conditioned frame property of the value loop (big-endian, no
range hypotheses): on success the cursor advances by `|vs| * w`, the length is
kept, byte bounds are preserved, and every bit strictly below the starting
cursor is untouched. -/
theorem writeValues_ok_spec (s : Bool) (w : Nat) :
    ∀ (vs : List Int) (buf : List Nat) (c : Nat) (buf' : List Nat) (c' : Nat),
      c + vs.length * w ≤ 8 * buf.length →
      writeValues .big s w vs buf c = .ok (buf', c') →
      c' = c + vs.length * w ∧ buf'.length = buf.length ∧
      (∀ i, buf.getD i 0 < 256 → buf'.getD i 0 < 256) ∧
      (∀ j, j < c → bufBit buf' j = bufBit buf j) := by
  intro vs
  induction vs with
  | nil =>
      intro buf c buf' c' _ hok
      rw [writeValues] at hok
      injection hok with hok
      obtain ⟨rfl, rfl⟩ : buf = buf' ∧ c = c' :=
        ⟨congrArg Prod.fst hok, congrArg Prod.snd hok⟩
      exact ⟨by simp, rfl, fun _ h => h, fun _ _ => rfl⟩
  | cons v vs ih =>
      intro buf c buf' c' hfit hok
      rw [writeValues] at hok
      by_cases hv : inRange s w v
      · rw [if_pos hv] at hok
        have hfit1 : c + w ≤ 8 * buf.length := by
          simp only [List.length_cons] at hfit
          have : (vs.length + 1) * w = vs.length * w + w := by ring
          omega
        obtain ⟨h2, hlen, hbound, hbits⟩ :=
          writeValueAux_big_spec (toUnsigned w v) w w c buf (le_refl w) hfit1
        have hok' : writeValues .big s w vs
            (writeValueAux .big w buf c (toUnsigned w v) w).1
            (writeValueAux .big w buf c (toUnsigned w v) w).2 = .ok (buf', c') := hok
        rw [h2] at hok'
        clear hok
        have hfit2 : c + w + vs.length * w ≤
            8 * (writeValueAux .big w buf c (toUnsigned w v) w).1.length := by
          rw [hlen]
          simp only [List.length_cons] at hfit
          have : (vs.length + 1) * w = vs.length * w + w := by ring
          omega
        obtain ⟨hc', hlen', hbound', hframe'⟩ := ih _ _ _ _ hfit2 hok'
        refine ⟨by
            simp only [List.length_cons]
            have hexp : (vs.length + 1) * w = vs.length * w + w := by ring
            omega,
          by omega, fun i hi => hbound' i (hbound i hi), ?_⟩
        intro j hj
        rw [hframe' j (by omega), hbits j]
        have : ¬(c ≤ j) := by omega
        simp [this]
      · rw [if_neg hv] at hok
        exact absurd hok (by simp)

/-- Byte equality from bitwise (cursor) equality, for bytes below 256. -/
theorem byte_eq_of_bufBit (buf1 buf2 : List Nat) (i : Nat)
    (h1 : buf1.getD i 0 < 256) (h2 : buf2.getD i 0 < 256)
    (h : ∀ t, t < 8 → bufBit buf1 (8 * i + t) = bufBit buf2 (8 * i + t)) :
    buf1.getD i 0 = buf2.getD i 0 := by
  apply Nat.eq_of_testBit_eq
  intro p
  rcases Nat.lt_or_ge p 8 with hp | hp
  · have ht := h (7 - p) (by omega)
    unfold bufBit at ht
    have hdiv : (8 * i + (7 - p)) / 8 = i := by omega
    have hmod : 7 - (8 * i + (7 - p)) % 8 = p := by omega
    rw [hdiv, hmod] at ht
    exact ht
  · rw [Nat.testBit_lt_two_pow (Nat.lt_of_lt_of_le h1 (by
        calc (256 : Nat) = 2 ^ 8 := by norm_num
        _ ≤ 2 ^ p := Nat.pow_le_pow_right (by norm_num) hp)),
      Nat.testBit_lt_two_pow (Nat.lt_of_lt_of_le h2 (by
        calc (256 : Nat) = 2 ^ 8 := by norm_num
        _ ≤ 2 ^ p := Nat.pow_le_pow_right (by norm_num) hp))]

/-- Whole-buffer equality from bitwise equality. -/
theorem buf_eq_of_bufBit (buf1 buf2 : List Nat)
    (hlen : buf1.length = buf2.length)
    (h1 : ∀ i, buf1.getD i 0 < 256) (h2 : ∀ i, buf2.getD i 0 < 256)
    (h : ∀ j, bufBit buf1 j = bufBit buf2 j) : buf1 = buf2 := by
  apply list_eq_of_getD 0 _ _ hlen
  intro i _
  exact byte_eq_of_bufBit buf1 buf2 i (h1 i) (h2 i) (fun t _ => h (8 * i + t))

theorem bufBit_append_replicate_zero (b : List Nat) (m j : Nat) :
    bufBit (b ++ List.replicate m 0) j = bufBit b j := by
  unfold bufBit
  rcases Nat.lt_or_ge (j / 8) b.length with h | h
  · rw [getD_append_left _ _ _ _ h]
  · rw [getD_append_right _ _ _ _ h]
    rw [getD_replicate_zero]
    rw [List.getD_eq_getElem?_getD, List.getElem?_eq_none (by simpa using h)]
    rfl

theorem getD_lt_of_forall (l : List Nat) (h : ∀ b ∈ l, b < 256) :
    ∀ i, l.getD i 0 < 256 := by
  intro i
  rcases Nat.lt_or_ge i l.length with hi | hi
  · rw [List.getD_eq_getElem?_getD, List.getElem?_eq_getElem hi, Option.getD_some]
    exact h _ (List.getElem_mem hi)
  · rw [List.getD_eq_getElem?_getD, List.getElem?_eq_none (by simpa using hi)]
    norm_num

theorem getD_take_lt (l : List Nat) (n i : Nat) (d : Nat) (h : i < n) :
    (l.take n).getD i d = l.getD i d := by
  simp [List.getD_eq_getElem?_getD, List.getElem?_take, h]

/-- High (already-written) bits of a byte agree when their testBits agree. -/
theorem byte_high_eq (b1 b2 off : Nat) (h1 : b1 < 256) (h2 : b2 < 256)
    (hoff : off ≤ 8) (h : ∀ t, t < off → b1.testBit (7 - t) = b2.testBit (7 - t)) :
    b1 >>> (8 - off) = b2 >>> (8 - off) := by
  apply Nat.eq_of_testBit_eq
  intro q
  rw [Nat.testBit_shiftRight, Nat.testBit_shiftRight]
  rcases Nat.lt_or_ge q off with hq | hq
  · have := h (off - 1 - q) (by omega)
    have heq : 7 - (off - 1 - q) = 8 - off + q := by omega
    rw [heq] at this
    exact this
  · rw [Nat.testBit_lt_two_pow (Nat.lt_of_lt_of_le h1 (by
        calc (256 : Nat) = 2 ^ 8 := by norm_num
        _ ≤ 2 ^ (8 - off + q) := Nat.pow_le_pow_right (by norm_num) (by omega))),
      Nat.testBit_lt_two_pow (Nat.lt_of_lt_of_le h2 (by
        calc (256 : Nat) = 2 ^ 8 := by norm_num
        _ ≤ 2 ^ (8 - off + q) := Nat.pow_le_pow_right (by norm_num) (by omega)))]

/-- Frame property of `to_bytes` on a non-empty existing buffer (big-endian):
bytes strictly before the last pre-existing byte are unchanged, and in the
last pre-existing byte the `writing_bit_offset` already-written high bits are
preserved. -/
theorem to_bytes_existing_frame (vs : List Int) (s : Bool) (w : Nat)
    (existing : List Nat) (off : Nat) (buf : List Nat) (o : Nat)
    (hne : existing ≠ []) (hoff : off < 8)
    (hbytes : ∀ b ∈ existing, b < 256)
    (hok : to_bytes vs s w (some existing) off .big = .ok (buf, o)) :
    (∀ i, i < existing.length - 1 → buf.getD i 0 = existing.getD i 0) ∧
    (buf.getD (existing.length - 1) 0) >>> (8 - off) =
      (existing.getD (existing.length - 1) 0) >>> (8 - off) := by
  have hL : 0 < existing.length := List.length_pos.mpr hne
  set L := existing.length with hLdef
  set c0 := (L - 1) * 8 + off with hc0
  set N := (c0 + vs.length * w + 7) / 8 with hN
  have hunf : to_bytes vs s w (some existing) off .big =
      (match writeValues .big s w vs
        (if existing.length < N then
          existing ++ List.replicate (N - existing.length) 0 else existing) c0 with
      | .error e => .error e
      | .ok (buf2, c2) =>
        .ok (if c2 % 8 = 0 ∧ N < buf2.length then buf2.take N else buf2, c2 % 8)) := by
    have hgt : existing.length > 0 := hL
    unfold to_bytes
    simp only [hgt, if_true]
  rw [hunf] at hok
  set buffer1 := (if existing.length < N then
    existing ++ List.replicate (N - existing.length) 0 else existing) with hbuffer1
  have hB1len : buffer1.length = max L N := by
    rw [hbuffer1]
    split <;> simp <;> omega
  have hB1bytes : ∀ b ∈ buffer1, b < 256 := by
    rw [hbuffer1]
    split
    · intro b hb
      rcases List.mem_append.mp hb with hb | hb
      · exact hbytes b hb
      · have := List.eq_of_mem_replicate hb
        omega
    · exact hbytes
  have hB1getD : ∀ i, buffer1.getD i 0 < 256 := getD_lt_of_forall _ hB1bytes
  have hB1frame : ∀ i, i < L → buffer1.getD i 0 = existing.getD i 0 := by
    intro i hi
    rw [hbuffer1]
    split
    · exact getD_append_left _ _ _ _ (by omega)
    · rfl
  have hfit : c0 + vs.length * w ≤ 8 * buffer1.length := by
    rw [hB1len]
    have : c0 + vs.length * w ≤ 8 * N := by omega
    omega
  cases hwv : writeValues .big s w vs buffer1 c0 with
  | error e => rw [hwv] at hok; exact absurd hok (by simp)
  | ok r =>
      obtain ⟨buf2, c2⟩ := r
      rw [hwv] at hok
      obtain ⟨hc2, hlen2, hbound2, hframe2⟩ :=
        writeValues_ok_spec s w vs buffer1 c0 buf2 c2 hfit hwv
      have hbufo : buf = (if c2 % 8 = 0 ∧ N < buf2.length then buf2.take N else buf2) ∧
          o = c2 % 8 := by
        have h := Except.ok.inj hok
        exact ⟨(congrArg Prod.fst h).symm, (congrArg Prod.snd h).symm⟩
      have hNge : L - 1 ≤ N := by omega
      have hframe_bits : ∀ j, j < c0 → bufBit buf2 j = bufBit existing j := by
        intro j hj
        rw [hframe2 j hj]
        unfold bufBit
        rw [hB1frame (j / 8) (by omega)]
      have hbyte_lt : ∀ i, buf2.getD i 0 < 256 := fun i => hbound2 i (hB1getD i)
      have hbyte_frame : ∀ i, i < L - 1 → buf2.getD i 0 = existing.getD i 0 := by
        intro i hi
        apply byte_eq_of_bufBit _ _ _ (hbyte_lt i) (getD_lt_of_forall _ hbytes i)
        intro t ht
        apply hframe_bits
        omega
      constructor
      · intro i hi
        rw [hbufo.1]
        split
        · rw [getD_take_lt _ _ _ _ (by omega)]
          exact hbyte_frame i hi
        · exact hbyte_frame i hi
      · rw [hbufo.1]
        by_cases htrim : c2 % 8 = 0 ∧ N < buf2.length
        · rw [if_pos htrim]
          -- the trim only fires when nothing is written past the cursor and
          -- `off = 0`; the removed last byte carried no bits below the offset
          have hNL : N = L - 1 := by
            rw [hlen2, hB1len] at htrim
            omega
          have hoff0 : off = 0 := by
            have h1 : c2 = c0 + vs.length * w := hc2
            have h2 : N = (c0 + vs.length * w + 7) / 8 := hN
            omega
          have htakeD : ((buf2.take N).getD (L - 1) 0) = 0 := by
            rw [List.getD_eq_getElem?_getD, List.getElem?_eq_none (by
              rw [List.length_take]
              omega)]
            rfl
          rw [htakeD, hoff0]
          have hex : existing.getD (L - 1) 0 < 256 := getD_lt_of_forall _ hbytes _
          rw [Nat.shiftRight_eq_div_pow, Nat.shiftRight_eq_div_pow]
          rw [Nat.div_eq_of_lt (show existing.getD (L - 1) 0 < 2 ^ (8 - 0) by
            have h28 : (2 : Nat) ^ (8 - 0) = 256 := by norm_num
            omega)]
        · rw [if_neg htrim]
          apply byte_high_eq _ _ _ (hbyte_lt _) (getD_lt_of_forall _ hbytes _) (by omega)
          intro t ht
          have := hframe_bits (8 * (L - 1) + t) (by omega)
          unfold bufBit at this
          have hdiv : (8 * (L - 1) + t) / 8 = L - 1 := by omega
          have hmod : 7 - (8 * (L - 1) + t) % 8 = 7 - t := by omega
          rw [hdiv, hmod] at this
          exact this

theorem streamBits_append (w : Nat) (vs1 vs2 : List Int) :
    streamBits w (vs1 ++ vs2) = streamBits w vs1 ++ streamBits w vs2 := by
  simp [streamBits]

/-- Continuation: starting a second `to_bytes` call from the buffer and
bit offset returned by a first call reproduces the single combined call,
provided the first call ended mid-byte (`offset ≠ 0`). -/
theorem to_bytes_chained_big (s : Bool) (w : Nat)
    (vs1 vs2 : List Int) (b1 : List Nat) (o1 : Nat)
    (hr1 : ∀ v ∈ vs1, inRange s w v) (hr2 : ∀ v ∈ vs2, inRange s w v)
    (h1 : to_bytes vs1 s w .none 0 .big = .ok (b1, o1)) (ho : o1 ≠ 0) :
    to_bytes vs2 s w (some b1) o1 .big = to_bytes (vs1 ++ vs2) s w .none 0 .big := by
  obtain ⟨buf1, hb1, hlen1, hbound1, hbits1⟩ := to_bytes_fresh_big_spec s w vs1 hr1
  rw [h1] at hb1
  have hb1eq : b1 = buf1 := congrArg Prod.fst (Except.ok.inj hb1)
  have ho1eq : o1 = vs1.length * w % 8 := congrArg Prod.snd (Except.ok.inj hb1)
  subst hb1eq
  have hmod : vs1.length * w % 8 ≠ 0 := by rw [← ho1eq]; exact ho
  have hLpos : 0 < b1.length := by rw [hlen1]; omega
  have hc0 : (b1.length - 1) * 8 + o1 = vs1.length * w := by
    rw [hlen1, ho1eq]
    omega
  obtain ⟨buf12, hb12, hlen12, hbound12, hbits12⟩ :=
    to_bytes_fresh_big_spec s w (vs1 ++ vs2) (by
      intro v hv
      rcases List.mem_append.mp hv with hv | hv
      · exact hr1 v hv
      · exact hr2 v hv)
  have hntot : (vs1 ++ vs2).length * w = vs1.length * w + vs2.length * w := by
    rw [List.length_append]
    ring
  have hN12ge : b1.length ≤ (vs1.length * w + vs2.length * w + 7) / 8 := by
    rw [hlen1]
    omega
  have hB1len : (if b1.length < (vs1.length * w + vs2.length * w + 7) / 8 then
      b1 ++ List.replicate ((vs1.length * w + vs2.length * w + 7) / 8 - b1.length) 0
      else b1).length = (vs1.length * w + vs2.length * w + 7) / 8 := by
    split
    · simp
      omega
    · omega
  have hB1bits : ∀ j, bufBit (if b1.length <
      (vs1.length * w + vs2.length * w + 7) / 8 then
      b1 ++ List.replicate ((vs1.length * w + vs2.length * w + 7) / 8 - b1.length) 0
      else b1) j = (decide (j < vs1.length * w) && (streamBits w vs1).getD j false) := by
    intro j
    split
    · rw [bufBit_append_replicate_zero]
      exact hbits1 j
    · exact hbits1 j
  have hB1getD : ∀ i, (if b1.length < (vs1.length * w + vs2.length * w + 7) / 8 then
      b1 ++ List.replicate ((vs1.length * w + vs2.length * w + 7) / 8 - b1.length) 0
      else b1).getD i 0 < 256 := by
    intro i
    split
    · rcases Nat.lt_or_ge i b1.length with hi | hi
      · rw [getD_append_left _ _ _ _ hi]
        exact hbound1 i
      · rw [getD_append_right _ _ _ _ hi, getD_replicate_zero]
        norm_num
    · exact hbound1 i
  obtain ⟨buf2, hwv, hlen2, hbound2, hbits2⟩ :=
    writeValues_big_spec s w vs2 _ (vs1.length * w) hr2 (by rw [hB1len]; omega)
  have hchain : to_bytes vs2 s w (some b1) o1 .big =
      .ok (buf2, (vs1.length * w + vs2.length * w) % 8) := by
    have hgt : b1.length > 0 := hLpos
    unfold to_bytes
    simp only [hgt, if_true]
    rw [hc0]
    rw [hwv]
    have hnotrim : ¬((vs1.length * w + vs2.length * w) % 8 = 0 ∧
        (vs1.length * w + vs2.length * w + 7) / 8 < buf2.length) := by
      rw [hlen2, hB1len]
      simp
    simp only [if_neg hnotrim]
  rw [hchain, hb12, hntot]
  have hbufeq : buf2 = buf12 := by
    apply buf_eq_of_bufBit _ _ (by rw [hlen2, hB1len, hlen12, hntot])
      (fun i => hbound2 i (hB1getD i)) hbound12
    intro j
    rw [hbits2 j, hB1bits j, hbits12 j, hntot]
    rw [streamBits_append]
    by_cases hj1 : j < vs1.length * w
    · have hj2 : j < vs1.length * w + vs2.length * w := by omega
      have hsa : (streamBits w vs1 ++ streamBits w vs2).getD j false =
          (streamBits w vs1).getD j false := getD_append_left _ _ _ _ (by simp; omega)
      have hns : ¬(vs1.length * w ≤ j) := by omega
      rw [hsa]
      simp [hj1, hj2, hns]
    · have hsa : (streamBits w vs1 ++ streamBits w vs2).getD j false =
          (streamBits w vs2).getD (j - vs1.length * w) false := by
        rw [getD_append_right _ _ _ _ (by simp; omega)]
        congr 1
        simp
      have hge : vs1.length * w ≤ j := by omega
      by_cases hj2 : j < vs1.length * w + vs2.length * w
      · rw [hsa]
        simp [hj1, hj2, hge]
      · simp [hj1, hj2, hge]
  rw [hbufeq]

/-! ## The parse phase never raises `ChecksumError` -/

theorem except_bind_error {α β : Type} {x : Except Err α} {f : α → Except Err β} {e : Err}
    (h : x >>= f = .error e) : x = .error e ∨ ∃ a, x = .ok a ∧ f a = .error e := by
  cases x with
  | error e' =>
      left
      simpa [Bind.bind, Except.bind] using h
  | ok a =>
      right
      exact ⟨a, rfl, by simpa [Bind.bind, Except.bind] using h⟩

theorem except_map_error {α β : Type} {f : α → β} {x : Except Err α} {e : Err}
    (h : Except.map f x = .error e) : x = .error e := by
  cases x with
  | error e' => simpa [Except.map] using h
  | ok a => simp [Except.map] at h

theorem to_ints_no_checksumError (data : List Nat) (s : Bool) (w count startBit : Nat)
    (bo : ByteOrder) (e : Err)
    (h : to_ints data s w count startBit bo = .error e) : e ≠ .checksumError := by
  unfold to_ints at h
  simp only [] at h
  repeat' split at h
  all_goals
    first
      | (injection h with h
         subst h
         decide)
      | exact absurd h (by simp)

theorem parseChannels_no_checksumError (s : Bool) (w : Nat) :
    ∀ (n : Nat) (data : List Nat) (e : Err),
      parseChannels s w n data = .error e → e ≠ .checksumError := by
  intro n
  induction n with
  | zero =>
      intro data e h
      rw [parseChannels] at h
      exact absurd h (by simp)
  | succ n ih =>
      intro data e h
      rw [parseChannels] at h
      split at h
      · injection h with h
        subst h
        decide
      · simp only [] at h
        split at h
        · injection h with h
          subst h
          decide
        · split at h
          · injection h with h
            subst h
            decide
          · rcases except_bind_error h with hti | ⟨r, hr, h⟩
            · exact to_ints_no_checksumError _ _ _ _ _ _ _ hti
            · rcases except_bind_error h with hpc | ⟨rest, hrest, h⟩
              · exact ih _ _ hpc
              · exact absurd h (by simp)

theorem NDTPPayloadBroadband_unpack_no_checksumError (data : List Nat) (e : Err)
    (h : NDTPPayloadBroadband.unpack data = .error e) : e ≠ .checksumError := by
  unfold NDTPPayloadBroadband.unpack at h
  split at h
  · injection h with h
    subst h
    decide
  · simp only [] at h
    exact parseChannels_no_checksumError _ _ _ _ _ (except_map_error h)

theorem NDTPPayloadSpiketrain_unpack_no_checksumError (data : List Nat) (e : Err)
    (h : NDTPPayloadSpiketrain.unpack data = .error e) : e ≠ .checksumError := by
  unfold NDTPPayloadSpiketrain.unpack at h
  split at h
  · injection h with h
    subst h
    decide
  · simp only [] at h
    split at h
    · injection h with h
      subst h
      decide
    · exact to_ints_no_checksumError _ _ _ _ _ _ _ (except_map_error h)

theorem NDTPHeader_unpack_no_checksumError (data : List Nat) (e : Err)
    (h : NDTPHeader.unpack data = .error e) : e ≠ .checksumError := by
  unfold NDTPHeader.unpack at h
  split at h
  · injection h with h
    subst h
    decide
  · simp only [] at h
    split at h
    · injection h with h
      subst h
      decide
    · exact absurd h (by simp)

/-- The header-parse and payload-decode phase can fail with `InsufficientData`,
`VersionMismatch`, `UnknownDataType` or `InvalidBitWidth` — never with
`ChecksumError`. -/
theorem NDTPMessage_parse_no_checksumError (data : List Nat) (e : Err)
    (h : NDTPMessage.parse data = .error e) : e ≠ .checksumError := by
  unfold NDTPMessage.parse at h
  rcases except_bind_error h with hh | ⟨header, hh, h⟩
  · exact NDTPHeader_unpack_no_checksumError _ _ hh
  · simp only [] at h
    split at h
    · exact NDTPPayloadBroadband_unpack_no_checksumError _ _ (except_map_error h)
    · split at h
      · exact NDTPPayloadSpiketrain_unpack_no_checksumError _ _ (except_map_error h)
      · injection h with h
        subst h
        decide

/-! ## Running `to_bytes` reduces to running `writeValues` -/

/-- `to_bytes` is the `writeValues` loop run on some initial buffer and bit
cursor, its result trimmed; in particular it succeeds or fails exactly as
`writeValues` does. -/
theorem to_bytes_run (vs : List Int) (s : Bool) (w : Nat)
    (existing : Option (List Nat)) (off : Nat) (bo : ByteOrder) :
    ∃ B C, to_bytes vs s w existing off bo =
      (match writeValues bo s w vs B C with
       | .error e => .error e
       | .ok (buf, c) =>
         .ok (if c % 8 = 0 ∧ (C + vs.length * w + 7) / 8 < buf.length then
               buf.take ((C + vs.length * w + 7) / 8)
             else buf, c % 8)) := by
  rcases existing with _ | ex
  · exact ⟨_, _, rfl⟩
  · exact ⟨_, _, rfl⟩

/-! ## Byte-order-generic continuation: the chained call equals the single
call whenever the first call ended mid-byte -/

/-- The write loop advances the cursor by exactly `rem` bits and preserves
the buffer's length (either byte order). -/
theorem writeValueAux_run (bo : ByteOrder) :
    ∀ (fuel : Nat) (buf : List Nat) (c u rem : Nat), rem ≤ fuel →
      (writeValueAux bo fuel buf c u rem).2 = c + rem ∧
      (writeValueAux bo fuel buf c u rem).1.length = buf.length := by
  intro fuel
  induction fuel with
  | zero =>
      intro buf c u rem h
      have h0 : rem = 0 := Nat.le_zero.mp h
      subst h0
      rw [writeValueAux]
      exact ⟨by omega, rfl⟩
  | succ fuel ih =>
      intro buf c u rem h
      rw [writeValueAux]
      by_cases h0 : rem = 0
      · rw [if_pos h0]
        exact ⟨by omega, rfl⟩
      · rw [if_neg h0]
        simp only []
        have hbit : c % 8 < 8 := Nat.mod_lt _ (by norm_num)
        have hr1 : 1 ≤ min (8 - c % 8) rem := le_min (by omega) (by omega)
        refine ⟨?_, ?_⟩
        · rw [show c + rem = (c + min (8 - c % 8) rem) +
            (rem - min (8 - c % 8) rem) by omega]
          exact (ih _ (c + min (8 - c % 8) rem) u (rem - min (8 - c % 8) rem)
            (by omega : rem - min (8 - c % 8) rem ≤ fuel)).1
        · rw [(ih _ (c + min (8 - c % 8) rem) u (rem - min (8 - c % 8) rem)
            (by omega : rem - min (8 - c % 8) rem ≤ fuel)).2]
          simp

/-- Writing that stays within the first `buf.length` bytes commutes with
appending padding: the padding is never touched (either byte order). -/
theorem writeValueAux_padding (bo : ByteOrder) :
    ∀ (fuel : Nat) (buf pad : List Nat) (c u rem : Nat), rem ≤ fuel →
      c + rem ≤ 8 * buf.length →
      writeValueAux bo fuel (buf ++ pad) c u rem =
        ((writeValueAux bo fuel buf c u rem).1 ++ pad,
         (writeValueAux bo fuel buf c u rem).2) := by
  intro fuel
  induction fuel with
  | zero =>
      intro buf pad c u rem h hfit
      have h0 : rem = 0 := Nat.le_zero.mp h
      subst h0
      rw [writeValueAux, writeValueAux]
  | succ fuel ih =>
      intro buf pad c u rem h hfit
      rw [writeValueAux, writeValueAux]
      by_cases h0 : rem = 0
      · rw [if_pos h0, if_pos h0]
      · rw [if_neg h0, if_neg h0]
        simp only []
        have hbit : c % 8 < 8 := Nat.mod_lt _ (by norm_num)
        have hr1 : 1 ≤ min (8 - c % 8) rem := le_min (by omega) (by omega)
        have hrle : min (8 - c % 8) rem ≤ rem := Nat.min_le_right _ _
        have hidx : c / 8 < buf.length := by omega
        rw [getD_append_left _ _ _ _ hidx]
        rw [List.set_append_left _ _ hidx]
        apply ih
        · omega
        · simp
          omega

/-- A successful `writeValues` run ends at cursor `c + vs.length * w` and
preserves the buffer's length (either byte order). -/
theorem writeValues_run (bo : ByteOrder) (s : Bool) (w : Nat) :
    ∀ (vs : List Int) (buf : List Nat) (c : Nat) (buf' : List Nat) (c' : Nat),
      writeValues bo s w vs buf c = .ok (buf', c') →
      c' = c + vs.length * w ∧ buf'.length = buf.length := by
  intro vs
  induction vs with
  | nil =>
      intro buf c buf' c' h
      rw [writeValues] at h
      injection h with h
      have hb : buf = buf' := congrArg Prod.fst h
      have hc : c = c' := congrArg Prod.snd h
      subst hb
      subst hc
      exact ⟨by simp, rfl⟩
  | cons v vs ih =>
      intro buf c buf' c' h
      rw [writeValues] at h
      split at h
      · simp only [] at h
        obtain ⟨h1, h2⟩ := ih _ _ _ _ h
        obtain ⟨ha1, ha2⟩ := writeValueAux_run bo w buf c (toUnsigned w v) w
          (le_refl w)
        have hlen : (v :: vs).length * w = vs.length * w + w := by
          simp [List.length_cons]
          ring
        refine ⟨?_, ?_⟩
        · rw [h1, show (writeValue bo buf c (toUnsigned w v) w).2 = c + w from ha1,
            hlen]
          omega
        · rw [h2]
          exact ha2
      · exact absurd h (by simp)

/-- A successful `writeValues` run that stays within the buffer commutes with
appending padding (either byte order). -/
theorem writeValues_padding (bo : ByteOrder) (s : Bool) (w : Nat) :
    ∀ (vs : List Int) (buf pad : List Nat) (c : Nat) (buf' : List Nat) (c' : Nat),
      writeValues bo s w vs buf c = .ok (buf', c') →
      c' ≤ 8 * buf.length →
      writeValues bo s w vs (buf ++ pad) c = .ok (buf' ++ pad, c') := by
  intro vs
  induction vs with
  | nil =>
      intro buf pad c buf' c' h hfit
      rw [writeValues] at h ⊢
      injection h with h
      have hb : buf = buf' := congrArg Prod.fst h
      have hc : c = c' := congrArg Prod.snd h
      subst hb
      subst hc
      rfl
  | cons v vs ih =>
      intro buf pad c buf' c' h hfit
      rw [writeValues] at h ⊢
      split at h
      case isTrue hin =>
        rw [if_pos hin]
        simp only [] at h ⊢
        simp only [writeValue] at h ⊢
        obtain ⟨ha1, ha2⟩ := writeValueAux_run bo w buf c (toUnsigned w v) w
          (le_refl w)
        obtain ⟨hr1, hr2⟩ := writeValues_run bo s w vs _ _ _ _ h
        have hstep : c + w ≤ 8 * buf.length := by
          rw [ha1] at hr1
          omega
        rw [writeValueAux_padding bo w buf pad c (toUnsigned w v) w (le_refl w)
          hstep]
        exact ih _ pad _ _ _ h (by rw [ha2]; exact hfit)
      case isFalse hin =>
        exact absurd h (by simp)

/-- Appending value lists composes the write loop (either byte order). -/
theorem writeValues_append_ok (bo : ByteOrder) (s : Bool) (w : Nat) :
    ∀ (vs1 vs2 : List Int) (buf : List Nat) (c : Nat) (b : List Nat) (c1 : Nat),
      writeValues bo s w vs1 buf c = .ok (b, c1) →
      writeValues bo s w (vs1 ++ vs2) buf c = writeValues bo s w vs2 b c1 := by
  intro vs1
  induction vs1 with
  | nil =>
      intro vs2 buf c b c1 h
      rw [writeValues] at h
      injection h with h
      have hb : buf = b := congrArg Prod.fst h
      have hc : c = c1 := congrArg Prod.snd h
      subst hb
      subst hc
      rfl
  | cons v vs1 ih =>
      intro vs2 buf c b c1 h
      rw [writeValues] at h
      rw [List.cons_append, writeValues]
      split at h
      case isTrue hin =>
        rw [if_pos hin]
        simp only [] at h ⊢
        exact ih vs2 _ _ _ _ h
      case isFalse hin =>
        exact absurd h (by simp)

/-- A fresh `to_bytes` call is the write loop run from cursor 0 on a zeroed
buffer of `ceil(vs.length * w / 8)` bytes, its result trimmed. -/
theorem to_bytes_fresh_run (vs : List Int) (s : Bool) (w : Nat) (bo : ByteOrder) :
    to_bytes vs s w .none 0 bo =
      (match writeValues bo s w vs
        (List.replicate ((vs.length * w + 7) / 8) 0) 0 with
      | .error e => .error e
      | .ok (buf, c) =>
        .ok (if c % 8 = 0 ∧ (vs.length * w + 7) / 8 < buf.length then
              buf.take ((vs.length * w + 7) / 8)
            else buf, c % 8)) := by
  unfold to_bytes
  simp only [List.length_nil, Nat.zero_add, List.nil_append, Nat.sub_zero]
  rcases Nat.eq_zero_or_pos ((vs.length * w + 7) / 8) with h | h
  · rw [h, if_neg (lt_irrefl 0)]
    rfl
  · rw [if_pos h]

/-- A continuation `to_bytes` call on a non-empty existing buffer: cursor
`(len - 1) * 8 + off`, buffer extended to the total byte count, write loop,
trim. -/
theorem to_bytes_cont_run (vs : List Int) (s : Bool) (w : Nat) (b : List Nat)
    (off : Nat) (bo : ByteOrder) (hb : b ≠ []) :
    to_bytes vs s w (some b) off bo =
      (match writeValues bo s w vs
        (if b.length < ((b.length - 1) * 8 + off + vs.length * w + 7) / 8 then
          b ++ List.replicate
            (((b.length - 1) * 8 + off + vs.length * w + 7) / 8 - b.length) 0
        else b) ((b.length - 1) * 8 + off) with
      | .error e => .error e
      | .ok (buf, c) =>
        .ok (if c % 8 = 0 ∧
              ((b.length - 1) * 8 + off + vs.length * w + 7) / 8 < buf.length then
              buf.take (((b.length - 1) * 8 + off + vs.length * w + 7) / 8)
            else buf, c % 8)) := by
  have hgt : b.length > 0 := List.length_pos.mpr hb
  unfold to_bytes
  simp only [hgt, if_true]

/-- Contiguous continuation, generically in the byte order and with no range
conditions: if the fresh call on `vs1` ended mid-byte (`o1 ≠ 0`), continuing
with `vs2` from `(b1, o1)` equals the single fresh call on `vs1 ++ vs2`. -/
theorem to_bytes_chained (s : Bool) (w : Nat) (bo : ByteOrder)
    (vs1 vs2 : List Int) (b1 : List Nat) (o1 : Nat)
    (h1 : to_bytes vs1 s w .none 0 bo = .ok (b1, o1)) (ho : o1 ≠ 0) :
    to_bytes vs2 s w (some b1) o1 bo = to_bytes (vs1 ++ vs2) s w .none 0 bo := by
  rw [to_bytes_fresh_run] at h1
  cases hw1 : writeValues bo s w vs1
      (List.replicate ((vs1.length * w + 7) / 8) 0) 0 with
  | error e =>
      rw [hw1] at h1
      exact absurd h1 (by simp)
  | ok r =>
      obtain ⟨buf1, c1⟩ := r
      rw [hw1] at h1
      have h1' : Except.ok
          ((if c1 % 8 = 0 ∧ (vs1.length * w + 7) / 8 < buf1.length then
              buf1.take ((vs1.length * w + 7) / 8)
            else buf1), c1 % 8) =
          (Except.ok (b1, o1) : Except Err (List Nat × Nat)) := h1
      injection h1' with hpair
      have ho1 : c1 % 8 = o1 := congrArg Prod.snd hpair
      have hmod : c1 % 8 ≠ 0 := by omega
      have hb1 : buf1 = b1 := by
        have := congrArg Prod.fst hpair
        rwa [if_neg (by simp [hmod])] at this
      subst hb1
      obtain ⟨hc1, hl1⟩ := writeValues_run bo s w vs1 _ _ _ _ hw1
      rw [Nat.zero_add] at hc1
      rw [List.length_replicate] at hl1
      have hadd : (vs1 ++ vs2).length * w = vs1.length * w + vs2.length * w := by
        rw [List.length_append, Nat.add_mul]
      have hbne : buf1 ≠ [] := by
        apply List.length_pos.mp
        rw [hl1]
        omega
      rw [to_bytes_cont_run vs2 s w buf1 o1 bo hbne]
      rw [to_bytes_fresh_run (vs1 ++ vs2) s w bo]
      have hsplit : List.replicate (((vs1 ++ vs2).length * w + 7) / 8) (0 : Nat) =
          List.replicate ((vs1.length * w + 7) / 8) 0 ++
            List.replicate (((vs1 ++ vs2).length * w + 7) / 8 -
              (vs1.length * w + 7) / 8) 0 := by
        rw [← List.replicate_add]
        congr 1
        omega
      have hpad := writeValues_padding bo s w vs1
        (List.replicate ((vs1.length * w + 7) / 8) 0)
        (List.replicate (((vs1 ++ vs2).length * w + 7) / 8 -
          (vs1.length * w + 7) / 8) 0) 0 buf1 c1 hw1
        (by rw [List.length_replicate]; omega)
      have hcomb := writeValues_append_ok bo s w vs1 vs2
        (List.replicate ((vs1.length * w + 7) / 8) 0 ++
          List.replicate (((vs1 ++ vs2).length * w + 7) / 8 -
            (vs1.length * w + 7) / 8) 0) 0
        (buf1 ++ List.replicate (((vs1 ++ vs2).length * w + 7) / 8 -
          (vs1.length * w + 7) / 8) 0) c1 hpad
      rw [hsplit, hcomb]
      have hC : (buf1.length - 1) * 8 + o1 = c1 := by
        rw [hl1]
        omega
      rw [hC]
      have hN : (c1 + vs2.length * w + 7) / 8 = ((vs1 ++ vs2).length * w + 7) / 8 := by
        omega
      rw [hN]
      have hBUF : (if buf1.length < ((vs1 ++ vs2).length * w + 7) / 8 then
          buf1 ++ List.replicate (((vs1 ++ vs2).length * w + 7) / 8 -
            buf1.length) 0
        else buf1) = buf1 ++ List.replicate (((vs1 ++ vs2).length * w + 7) / 8 -
          (vs1.length * w + 7) / 8) 0 := by
        rw [hl1]
        by_cases hlt : (vs1.length * w + 7) / 8 < ((vs1 ++ vs2).length * w + 7) / 8
        · rw [if_pos hlt]
        · rw [if_neg hlt]
          have hz : ((vs1 ++ vs2).length * w + 7) / 8 -
              (vs1.length * w + 7) / 8 = 0 := by omega
          rw [hz]
          simp
      rw [hBUF]

/-! ## The claims -/

/-- C1: for every valid message — a header whose `data_type` is
`kBroadband` or `kSpiketrain`, paired with a constructible payload of the
matching kind whose every sample fits the declared bit width and signedness
(spike-count lists and per-channel sample lists non-empty: empty ones cannot
be built from a list and make the decoder's zero-shape array allocation
raise) — `NDTPMessage.unpack (NDTPMessage.pack msg)` returns the original
header and payload. -/
theorem claim_C1_pack_unpack_roundtrip (m : NDTPMessage) (hvalid : validMessage m) :
    NDTPMessage.pack m >>= NDTPMessage.unpack = .ok m := by
  obtain ⟨mb, hpack, -, -, hunpack⟩ := NDTPMessage_pack_spec m hvalid
  rw [hpack]
  simpa [Bind.bind, Except.bind] using hunpack

theorem claim_C1_pack_unpack_roundtrip_witness :
    (NDTPMessage.pack ⟨⟨1, 123, 7⟩, some (.broadband
        ⟨true, 13, 3, [⟨1, [-4096, 4095, 0]⟩, ⟨2, [-1]⟩]⟩)⟩ >>= NDTPMessage.unpack =
      .ok ⟨⟨1, 123, 7⟩, some (.broadband
        ⟨true, 13, 3, [⟨1, [-4096, 4095, 0]⟩, ⟨2, [-1]⟩]⟩)⟩) ∧
    (NDTPMessage.pack ⟨⟨2, 5, 9⟩, some (.spiketrain ⟨[0, 1, 2, 3]⟩)⟩ >>=
        NDTPMessage.unpack =
      .ok ⟨⟨2, 5, 9⟩, some (.spiketrain ⟨[0, 1, 2, 3]⟩)⟩) :=
  ⟨claim_C1_pack_unpack_roundtrip _ (by decide),
   claim_C1_pack_unpack_roundtrip _ (by decide)⟩

/-- C5: in `NDTPMessage.unpack`, payload decoding is attempted before checksum
verification: whenever the parse phase (header then payload decode) fails, its
error — which is never `ChecksumError` — is what `unpack` reports, regardless
of the carried CRC; and `unpack` reports `ChecksumError` only when the parse
phase succeeded. -/
theorem claim_C5_parse_before_crc (data : List Nat) :
    (∀ e, NDTPMessage.parse data = .error e →
      NDTPMessage.unpack data = .error e ∧ e ≠ .checksumError) ∧
    (NDTPMessage.unpack data = .error .checksumError →
      ∃ r, NDTPMessage.parse data = .ok r) := by
  have hcomp : ∀ e, NDTPMessage.parse data = .error e →
      NDTPMessage.unpack data = .error e := by
    intro e he
    unfold NDTPMessage.unpack
    rw [he]
    rfl
  constructor
  · intro e he
    exact ⟨hcomp e he, NDTPMessage_parse_no_checksumError data e he⟩
  · intro hu
    cases hp : NDTPMessage.parse data with
    | ok r => exact ⟨r, rfl⟩
    | error e =>
        exfalso
        rw [hcomp e hp] at hu
        injection hu with hu
        exact NDTPMessage_parse_no_checksumError data e hp hu

set_option maxRecDepth 20000 in
theorem claim_C5_parse_before_crc_witness :
    (NDTPMessage.unpack ([] : List Nat) = .error .insufficientData ∧
      Err.insufficientData ≠ Err.checksumError) ∧
    ∃ r, NDTPMessage.parse
      [1, 2, 0, 0, 0, 0, 0, 0, 0, 0, 0, 0, 0, 0, 0, 1, 0, 0, 0, 64, 168, 118] = .ok r :=
  ⟨(claim_C5_parse_before_crc []).1 .insufficientData rfl,
   (claim_C5_parse_before_crc
     [1, 2, 0, 0, 0, 0, 0, 0, 0, 0, 0, 0, 0, 0, 0, 1, 0, 0, 0, 64, 168, 118]).2 rfl⟩

/-- C6: `to_bytes` fails with `ValueOutOfRange` exactly when some value does
not fit its declared width: value 16 at unsigned width 4 fails, value -9 at
signed width 4 fails, and a list all of whose values lie within
`[minValue, maxValue]` (that is `[-2^(w-1), 2^(w-1)-1]` signed,
`[0, 2^w-1]` unsigned) packs without error. -/
theorem claim_C6_range_rejection (vs : List Int) (s : Bool) (w : Nat)
    (existing : Option (List Nat)) (off : Nat) :
    (to_bytes [16] false 4 .none 0 .big = .error .valueOutOfRange) ∧
    (to_bytes [-9] true 4 .none 0 .big = .error .valueOutOfRange) ∧
    ((∃ v ∈ vs, ¬inRange s w v) →
      to_bytes vs s w existing off .big = .error .valueOutOfRange) ∧
    ((∀ v ∈ vs, inRange s w v) →
      ∃ r, to_bytes vs s w existing off .big = .ok r) := by
  refine ⟨rfl, rfl, ?_, ?_⟩
  · intro hex
    obtain ⟨B, C, heq⟩ := to_bytes_run vs s w existing off .big
    rw [heq, writeValues_error_of_exists .big s w vs B C hex]
  · intro hrange
    obtain ⟨B, C, heq⟩ := to_bytes_run vs s w existing off .big
    obtain ⟨⟨buf, c⟩, hr⟩ := writeValues_ok_of_range .big s w vs B C hrange
    rw [heq, hr]
    exact ⟨_, rfl⟩

theorem claim_C6_range_rejection_witness :
    (to_bytes [16] false 4 .none 0 .big = .error .valueOutOfRange) ∧
    (to_bytes [-9] true 4 .none 0 .big = .error .valueOutOfRange) ∧
    (to_bytes [3, 200] false 4 .none 0 .big = .error .valueOutOfRange) ∧
    ∃ r, to_bytes [-8, 7, 0] true 4 .none 0 .big = .ok r := by
  obtain ⟨h1, h2, h3, -⟩ := claim_C6_range_rejection [3, 200] false 4 .none 0
  obtain ⟨-, -, -, h4⟩ := claim_C6_range_rejection [-8, 7, 0] true 4 .none 0
  exact ⟨h1, h2, h3 ⟨200, by decide, by decide⟩, h4 (by decide)⟩

/-- C10: frame property of incremental packing: when `to_bytes` is called with
a non-empty `existing` buffer (of genuine bytes, offset 0-7), every byte at an
index strictly below `existing.length - 1` is unchanged in the returned
buffer, and in the last pre-existing byte the bits above `writing_bit_offset`
(the bits already written) are preserved. -/
theorem claim_C10_existing_frame (vs : List Int) (s : Bool) (w : Nat)
    (existing : List Nat) (off : Nat) (buf : List Nat) (o : Nat)
    (hne : existing ≠ []) (hoff : off < 8)
    (hbytes : ∀ b ∈ existing, b < 256)
    (hok : to_bytes vs s w (some existing) off .big = .ok (buf, o)) :
    (∀ i, i < existing.length - 1 → buf.getD i 0 = existing.getD i 0) ∧
    (buf.getD (existing.length - 1) 0) >>> (8 - off) =
      (existing.getD (existing.length - 1) 0) >>> (8 - off) :=
  to_bytes_existing_frame vs s w existing off buf o hne hoff hbytes hok

theorem claim_C10_existing_frame_witness :
    (∀ i, i < ([171, 192] : List Nat).length - 1 →
      ([171, 196] : List Nat).getD i 0 = ([171, 192] : List Nat).getD i 0) ∧
    (([171, 196] : List Nat).getD (([171, 192] : List Nat).length - 1) 0) >>> (8 - 2) =
      (([171, 192] : List Nat).getD (([171, 192] : List Nat).length - 1) 0) >>> (8 - 2) :=
  claim_C10_existing_frame [1] false 4 [171, 192] 2 [171, 196] 6
    (by decide) (by decide) (by decide) rfl

/-- C2 (counterexample): spiketrain packing does not saturate: packing counts
`[0, 5, 15, 20]` fails with `ValueOutOfRange` (the count 5 already exceeds the
fixed width's maximum of 3), and the fixed width is 2 bits, not 4. -/
theorem claim_C2_spiketrain_counterexample :
    NDTPPayloadSpiketrain.pack ⟨[0, 5, 15, 20]⟩ = .error .valueOutOfRange ∧
    NDTPPayloadSpiketrain_BIT_WIDTH ≠ 4 :=
  ⟨rfl, by decide⟩

/-- C2 (amended): spiketrain packing rejects rather than saturates: counts
are bit-packed at the fixed 2-bit unsigned width, `pack` fails with
`ValueOutOfRange` as soon as any count lies outside 0..3, and a non-empty
list of counts all within 0..3 packs and unpacks back to itself unchanged
(an empty spiketrain payload is unconstructible, and decoding a zero-count
payload raises the zero-shape array-allocation `ValueError`). -/
theorem claim_C2_spiketrain_rejects (p : NDTPPayloadSpiketrain) :
    NDTPPayloadSpiketrain_BIT_WIDTH = 2 ∧
    ((∃ c ∈ p.spike_counts, ¬(0 ≤ c ∧ c ≤ 3)) →
      NDTPPayloadSpiketrain.pack p = .error .valueOutOfRange) ∧
    (validSpiketrain p →
      ∃ bs, NDTPPayloadSpiketrain.pack p = .ok bs ∧
        NDTPPayloadSpiketrain.unpack bs = .ok p) := by
  refine ⟨rfl, ?_, ?_⟩
  · intro hex
    obtain ⟨c, hc, hout⟩ := hex
    have hnot : ¬ inRange false NDTPPayloadSpiketrain_BIT_WIDTH c := by
      intro hin
      apply hout
      unfold inRange minValue maxValue NDTPPayloadSpiketrain_BIT_WIDTH at hin
      norm_num at hin
      exact ⟨hin.1, by omega⟩
    have herr : to_bytes p.spike_counts false NDTPPayloadSpiketrain_BIT_WIDTH
        .none 0 .big = .error .valueOutOfRange := by
      obtain ⟨B, C, heq⟩ := to_bytes_run p.spike_counts false
        NDTPPayloadSpiketrain_BIT_WIDTH .none 0 .big
      rw [heq, writeValues_error_of_exists .big false NDTPPayloadSpiketrain_BIT_WIDTH
        p.spike_counts B C ⟨c, hc, hnot⟩]
    unfold NDTPPayloadSpiketrain.pack
    split
    · rw [herr]
      rfl
    · rfl
  · intro hv
    obtain ⟨bs, hp, -, hu⟩ := NDTPPayloadSpiketrain_roundtrip p hv
    exact ⟨bs, hp, hu⟩

theorem claim_C2_spiketrain_rejects_witness :
    NDTPPayloadSpiketrain.pack ⟨[1, 5]⟩ = .error .valueOutOfRange ∧
    ∃ bs, NDTPPayloadSpiketrain.pack ⟨[0, 1, 2, 3]⟩ = .ok bs ∧
      NDTPPayloadSpiketrain.unpack bs = .ok ⟨[0, 1, 2, 3]⟩ :=
  ⟨(claim_C2_spiketrain_rejects ⟨[1, 5]⟩).2.1 ⟨5, by decide, by decide⟩,
   (claim_C2_spiketrain_rejects ⟨[0, 1, 2, 3]⟩).2.2 (by decide)⟩

/-- C3 (counterexample): the header packs to 15 bytes, not 12, and the
multi-byte fields are little-endian: `data_type = 2` occupies 4 bytes
(`[2, 0, 0, 0]`), the timestamp's least significant byte comes first, and
`seq_number = 0x1234` packs as `[0x34, 0x12]`. -/
theorem claim_C3_header_counterexample :
    NDTPHeader.pack ⟨2, 0x0102030405060708, 0x1234⟩ =
      .ok [1, 2, 0, 0, 0, 8, 7, 6, 5, 4, 3, 2, 1, 0x34, 0x12] ∧
    ([1, 2, 0, 0, 0, 8, 7, 6, 5, 4, 3, 2, 1, 0x34, 0x12] : List Nat).length ≠ 12 :=
  ⟨rfl, by decide⟩

/-- C3 (amended): `NDTPHeader.pack` produces exactly 15 bytes, little-endian
(`struct "<BIQH"`), in the order: version (1 byte, the protocol constant 1),
data_type (4 bytes), timestamp (8 bytes), seq_number (2 bytes), where
`leBytes n v` is the n-byte little-endian encoding of `v`; `NDTPHeader.unpack`
of these bytes recovers the same field values. -/
theorem claim_C3_header_layout (h : NDTPHeader) (hdt : h.data_type < 2 ^ 32)
    (hts : h.timestamp < 2 ^ 64) (hsq : h.seq_number < 2 ^ 16) :
    NDTPHeader.pack h = .ok (NDTP_VERSION :: (leBytes 4 h.data_type ++
      leBytes 8 h.timestamp ++ leBytes 2 h.seq_number)) ∧
    (NDTP_VERSION :: (leBytes 4 h.data_type ++ leBytes 8 h.timestamp ++
      leBytes 2 h.seq_number)).length = 15 ∧
    NDTPHeader.unpack (NDTP_VERSION :: (leBytes 4 h.data_type ++
      leBytes 8 h.timestamp ++ leBytes 2 h.seq_number)) = .ok h := by
  obtain ⟨h1, h2, -, h4⟩ := NDTPHeader_roundtrip h hdt hts hsq
  exact ⟨h1, h2, h4⟩

theorem claim_C3_header_layout_witness :
    NDTPHeader.pack ⟨1, 17, 42⟩ = .ok (NDTP_VERSION :: (leBytes 4 1 ++
      leBytes 8 17 ++ leBytes 2 42)) ∧
    (NDTP_VERSION :: (leBytes 4 1 ++ leBytes 8 17 ++ leBytes 2 42)).length = 15 ∧
    NDTPHeader.unpack (NDTP_VERSION :: (leBytes 4 1 ++ leBytes 8 17 ++
      leBytes 2 42)) = .ok ⟨1, 17, 42⟩ :=
  claim_C3_header_layout ⟨1, 17, 42⟩ (by decide) (by decide) (by decide)

/-- C8 (counterexample): the up-front byte check ignores `start_bit % 8`: with
a 1-byte buffer, width 8, `count = 1` and `start_bit = 4`, the buffer is not
shorter than `ceil(count * bit_width / 8) = 1` byte, yet the call returns
zero decoded values (not `count = 1`) without any error. -/
theorem claim_C8_to_ints_counterexample :
    to_ints [255] false 8 1 4 .big = .ok ([], 8, [255]) ∧
    ([] : List Int).length ≠ 1 :=
  ⟨rfl, by decide⟩

/-- C8 (amended): with `count ≥ 1`, `to_ints` fails up front with
`InsufficientData` when the buffer after skipping `start_bit / 8` whole bytes
is shorter than `ceil(bit_width * count / 8)` bytes; but exactly `count`
decoded values are only guaranteed under the stronger condition that
`count * bit_width + start_bit % 8` bits remain — the up-front check ignores
`start_bit % 8`, and when it passes with too few bits the call returns fewer
than `count` values without error. -/
theorem claim_C8_to_ints_count (data : List Nat) (s : Bool) (w count startBit : Nat)
    (hw : 0 < w) (hc : 0 < count) :
    ((data.drop (startBit / 8)).length < (w * count + 7) / 8 →
      to_ints data s w count startBit .big = .error .insufficientData) ∧
    (count * w + startBit % 8 ≤ 8 * (data.drop (startBit / 8)).length →
      ∃ vals, to_ints data s w count startBit .big =
        .ok (vals, startBit % 8 + count * w, data.drop (startBit / 8)) ∧
        vals.length = count) := by
  constructor
  · intro hshort
    rw [to_ints, if_neg (by omega), if_pos ⟨hc, hshort⟩]
  · intro hbits
    refine ⟨_, to_ints_count_big data s w count startBit hw hc hbits, ?_⟩
    exact groupsDecode_length _ _ _ _

theorem claim_C8_to_ints_count_witness :
    (to_ints [255] false 8 2 0 .big = .error .insufficientData) ∧
    ∃ vals, to_ints [255, 255] false 8 2 0 .big = .ok (vals, 0 % 8 + 2 * 8,
      List.drop (0 / 8) [255, 255]) ∧ vals.length = 2 :=
  ⟨(claim_C8_to_ints_count [255] false 8 2 0 (by decide) (by decide)).1 (by decide),
   (claim_C8_to_ints_count [255, 255] false 8 2 0 (by decide) (by decide)).2 (by decide)⟩

/-- C9 (counterexample): continuation at `writing_bit_offset = 0` with a
non-empty existing buffer is not contiguous: a fresh pack of `[1]` at width 8
ends with offset 0, and continuing with `[2]` from `([1], 0)` OR-writes over
the existing byte, yielding `[3]` — not the `[1, 2]` the single call
produces. -/
theorem claim_C9_chain_counterexample :
    to_bytes [1] false 8 .none 0 .big = .ok ([1], 0) ∧
    to_bytes [2] false 8 (some [1]) 0 .big = .ok ([3], 0) ∧
    to_bytes [1, 2] false 8 .none 0 .big = .ok ([1, 2], 0) ∧
    (([3] : List Nat), 0) ≠ (([1, 2] : List Nat), 0) :=
  ⟨rfl, rfl, rfl, by decide⟩

/-- C9 (amended): contiguous continuation holds exactly when the first call
ends mid-byte, for either byte order and with no condition on the values: if
a fresh `to_bytes` of `vs1` returns `(buffer1, offset1)` with `offset1 ≠ 0`,
then packing `vs2` with `existing = buffer1, writing_bit_offset = offset1`
returns exactly what the single fresh call on `vs1 ++ vs2` returns (same
buffer, same final bit offset).  (When `offset1 = 0` and `buffer1` is
non-empty, the continuation instead OR-writes into `buffer1`'s last byte.) -/
theorem claim_C9_chain_continuation (s : Bool) (w : Nat) (bo : ByteOrder)
    (vs1 vs2 : List Int) (b1 : List Nat) (o1 : Nat)
    (h1 : to_bytes vs1 s w .none 0 bo = .ok (b1, o1)) (ho : o1 ≠ 0) :
    to_bytes vs2 s w (some b1) o1 bo = to_bytes (vs1 ++ vs2) s w .none 0 bo :=
  to_bytes_chained s w bo vs1 vs2 b1 o1 h1 ho

theorem claim_C9_chain_continuation_witness :
    (to_bytes [2] false 4 (some [16]) 4 .big =
      to_bytes [1, 2] false 4 .none 0 .big) ∧
    (to_bytes [2] false 4 (some [1]) 4 .little =
      to_bytes [1, 2] false 4 .none 0 .little) :=
  ⟨claim_C9_chain_continuation false 4 .big [1] [2] [16] 4 rfl (by decide),
   claim_C9_chain_continuation false 4 .little [1] [2] [1] 4 rfl (by decide)⟩

set_option maxRecDepth 20000 in
/-- C4 (counterexample): a bit flip in the header+payload region need not
surface as `ChecksumError`: flipping bit 1 of byte 0 (the version byte) of a
validly packed message makes `unpack` fail with `VersionMismatch` — the parse
phase rejects the corrupted version before the checksum is ever compared. -/
theorem claim_C4_flip_counterexample :
    NDTPMessage.pack ⟨⟨2, 0, 0⟩, some (.spiketrain ⟨[1]⟩)⟩ =
      .ok [1, 2, 0, 0, 0, 0, 0, 0, 0, 0, 0, 0, 0, 0, 0, 1, 0, 0, 0, 64, 168, 117] ∧
    flipBit [1, 2, 0, 0, 0, 0, 0, 0, 0, 0, 0, 0, 0, 0, 0, 1, 0, 0, 0, 64, 168, 117] 0 1 =
      [3, 2, 0, 0, 0, 0, 0, 0, 0, 0, 0, 0, 0, 0, 0, 1, 0, 0, 0, 64, 168, 117] ∧
    NDTPMessage.unpack [3, 2, 0, 0, 0, 0, 0, 0, 0, 0, 0, 0, 0, 0, 0, 1, 0, 0, 0, 64, 168, 117] =
      .error .versionMismatch ∧
    Err.versionMismatch ≠ Err.checksumError :=
  ⟨rfl, rfl, rfl, by decide⟩

/-- C4 (amended): a single-bit flip anywhere in the header+payload region of a
validly packed message is always detected — `unpack` never succeeds on the
corrupted bytes — and it fails with `ChecksumError` exactly when the corrupted
header+payload still parse; when the flip breaks parsing itself (e.g. the
version byte, or a count field zeroed so that payload decode raises the
zero-shape `invalidShape` error), that earlier parse error is reported
instead. -/
theorem claim_C4_flip_detected (m : NDTPMessage) (hm : validMessage m)
    (bs : List Nat) (hpack : NDTPMessage.pack m = .ok bs)
    (i k : Nat) (hi : i < bs.length - 2) (hk : k < 8) :
    ((NDTPMessage.unpack (flipBit bs i k)).isOk = false) ∧
    (∀ r, NDTPMessage.parse (flipBit bs i k) = .ok r →
      NDTPMessage.unpack (flipBit bs i k) = .error .checksumError) := by
  obtain ⟨mb, hp, hlen, hbytes, -⟩ := NDTPMessage_pack_spec m hm
  rw [hpack] at hp
  have hbs : bs = mb ++ leBytes 2 (NDTPMessage.crc16 mb 0x8005 0xFFFF) :=
    Except.ok.inj hp
  subst hbs
  have hilen : i < mb.length := by
    have hl : (mb ++ leBytes 2 (NDTPMessage.crc16 mb 0x8005 0xFFFF)).length =
        mb.length + 2 := by simp
    omega
  exact unpack_flipBit_fails mb i k hlen hilen hk hbytes

set_option maxRecDepth 20000 in
theorem claim_C4_flip_detected_witness :
    ((NDTPMessage.unpack (flipBit
      [1, 2, 0, 0, 0, 0, 0, 0, 0, 0, 0, 0, 0, 0, 0, 1, 0, 0, 0, 64, 168, 117] 0 1)).isOk = false) ∧
    (∀ r, NDTPMessage.parse (flipBit
      [1, 2, 0, 0, 0, 0, 0, 0, 0, 0, 0, 0, 0, 0, 0, 1, 0, 0, 0, 64, 168, 117] 0 1) = .ok r →
      NDTPMessage.unpack (flipBit
        [1, 2, 0, 0, 0, 0, 0, 0, 0, 0, 0, 0, 0, 0, 0, 1, 0, 0, 0, 64, 168, 117] 0 1) =
        .error .checksumError) :=
  claim_C4_flip_detected ⟨⟨2, 0, 0⟩, some (.spiketrain ⟨[1]⟩)⟩ (by decide)
    [1, 2, 0, 0, 0, 0, 0, 0, 0, 0, 0, 0, 0, 0, 0, 1, 0, 0, 0, 64, 168, 117] rfl
    0 1 (by decide) (by decide)

/-- C7 (counterexample): the broadband fixed header is 6 bytes, not 7
(sample_rate occupies 2 bytes, not 3): packing a channel-less payload with
`sample_rate = 30000` yields exactly 6 bytes, and `unpack` accepts those 6
bytes — there is no 7-byte minimum. -/
theorem claim_C7_broadband_counterexample :
    NDTPPayloadBroadband.pack ⟨false, 8, 30000, []⟩ = .ok [16, 0, 0, 0, 117, 48] ∧
    ([16, 0, 0, 0, 117, 48] : List Nat).length = 6 ∧
    NDTPPayloadBroadband.unpack [16, 0, 0, 0, 117, 48] = .ok ⟨false, 8, 30000, []⟩ :=
  ⟨rfl, rfl, rfl⟩

/-- C7 (amended): a packed broadband payload begins with a fixed 6-byte
header: 1 byte `(bit_width << 1) | is_signed`, 3 bytes channel count
(big-endian), 2 bytes sample_rate (big-endian); `unpack` validates this
6-byte minimum length before reading channel count and sample rate (failing
with `InsufficientData` on shorter input), and unpacks the full payload back
to the original. -/
theorem claim_C7_broadband_layout (p : NDTPPayloadBroadband)
    (hvalid : validBroadband p) :
    ∃ bs, NDTPPayloadBroadband.pack p = .ok bs ∧
      bs.getD 0 0 = ((p.bit_width &&& 0x7F) <<< 1) ||| (if p.is_signed then 1 else 0) ∧
      (bs.drop 1).take 3 = beBytes 3 p.channels.length ∧
      (bs.drop 4).take 2 = beBytes 2 p.sample_rate ∧
      6 ≤ bs.length ∧
      (∀ data : List Nat, data.length < 6 →
        NDTPPayloadBroadband.unpack data = .error .insufficientData) ∧
      NDTPPayloadBroadband.unpack bs = .ok p := by
  obtain ⟨bs', hpack', -, -, hunp⟩ := NDTPPayloadBroadband_roundtrip p hvalid
  obtain ⟨hw1, hw24, hsr, hnch, hchs⟩ := hvalid
  obtain ⟨body, hbody, hbbound, -⟩ :=
    packChannels_roundtrip p.is_signed p.bit_width (by omega) p.channels hchs
  set s01 : Nat := if p.is_signed then 1 else 0 with hs01
  set b0 : Nat := ((p.bit_width &&& 0x7F) <<< 1) ||| s01 with hb0
  have hpack : NDTPPayloadBroadband.pack p =
      .ok (b0 :: (beBytes 3 p.channels.length ++ beBytes 2 p.sample_rate ++ body)) := by
    unfold NDTPPayloadBroadband.pack
    rw [if_pos hnch, if_pos hsr, hbody]
    rfl
  have hbs' : bs' = b0 :: (beBytes 3 p.channels.length ++ beBytes 2 p.sample_rate ++
      body) := by
    rw [hpack] at hpack'
    exact (Except.ok.inj hpack').symm
  rw [hbs'] at hunp
  have hgate : ∀ data : List Nat, data.length < 6 →
      NDTPPayloadBroadband.unpack data = .error .insufficientData := by
    intro data hlt
    unfold NDTPPayloadBroadband.unpack
    rw [if_pos hlt]
  refine ⟨_, hpack, rfl, ?_, ?_, by simp; omega, hgate, hunp⟩
  · rw [show (b0 :: (beBytes 3 p.channels.length ++ beBytes 2 p.sample_rate ++
        body)).drop 1 = beBytes 3 p.channels.length ++
        (beBytes 2 p.sample_rate ++ body) by simp]
    exact List.take_left' (beBytes_length 3 p.channels.length)
  · rw [show (b0 :: (beBytes 3 p.channels.length ++ beBytes 2 p.sample_rate ++
        body)).drop 4 = beBytes 2 p.sample_rate ++ body by
      rw [show b0 :: (beBytes 3 p.channels.length ++ beBytes 2 p.sample_rate ++
          body) = (b0 :: beBytes 3 p.channels.length) ++
          (beBytes 2 p.sample_rate ++ body) by simp]
      exact List.drop_left' (by simp)]
    exact List.take_left' (beBytes_length 2 p.sample_rate)

theorem claim_C7_broadband_layout_witness :
    ∃ bs, NDTPPayloadBroadband.pack ⟨false, 8, 30000, [⟨1, [5]⟩]⟩ = .ok bs ∧
      bs.getD 0 0 = ((8 &&& 0x7F) <<< 1) ||| (if (false : Bool) then 1 else 0) ∧
      (bs.drop 1).take 3 = beBytes 3 1 ∧
      (bs.drop 4).take 2 = beBytes 2 30000 ∧
      6 ≤ bs.length ∧
      (∀ data : List Nat, data.length < 6 →
        NDTPPayloadBroadband.unpack data = .error .insufficientData) ∧
      NDTPPayloadBroadband.unpack bs = .ok ⟨false, 8, 30000, [⟨1, [5]⟩]⟩ :=
  claim_C7_broadband_layout ⟨false, 8, 30000, [⟨1, [5]⟩]⟩ (by decide)

end NDTP
